import Mathlib

/-!
Verification of the prompt2scrape core pipeline.

This file gives a shallow embedding, in Lean 4, of the decision-making core of
the repository: the plan validator and plan generator (`services/planner.py`),
the extraction engine (`services/extractor.py`), the filter compiler and filter
applier (`services/filtering.py`), and the row normalizer
(`services/postprocess.py`).  Strings are modelled as `List Char`; Python
floats are modelled as rationals (no claim below depends on rounding);
the HTML document and the LLM oracle are modelled as injected capabilities,
matching their use in the source.  All definitions are executable so that
concrete runs of the embedded code can be checked by `decide`.
-/

namespace Prompt2Scrape

/-- Strings are lists of characters; Python `str` values are modelled this way
so that substring and per-character operations stay elementary. -/
abbrev Str := List Char

/-- The apostrophe character, built from its code point. -/
def apos : Char := Char.ofNat 39

/-- The right single quotation mark used by the gender-variant normalization. -/
def rsquo : Char := Char.ofNat 8217

/-- Python `str.lower()` restricted to per-character lowering (the source only
ever lowercases ASCII selector and prompt text). -/
def lowerStr (s : Str) : Str := s.map Char.toLower

/-- Python `str.strip()`: drop whitespace from both ends. -/
def trimStr (s : Str) : Str :=
  ((s.dropWhile Char.isWhitespace).reverse.dropWhile Char.isWhitespace).reverse

/-- Helper for `collapseWs`; the flag records whether we are inside a
whitespace run that has already emitted its single space. -/
def collapseAux : Bool → Str → Str
  | _, [] => []
  | inRun, c :: rest =>
    if c.isWhitespace then
      (if inRun then [] else [' ']) ++ collapseAux true rest
    else c :: collapseAux false rest

/-- Python `re.sub(r"\s+", " ", s)`: collapse each maximal whitespace run to a
single space. -/
def collapseWs (s : Str) : Str := collapseAux false s

/-- Python `pat in s` for strings: `pat` occurs as a contiguous substring. -/
def containsSub (pat s : Str) : Bool := s.tails.any (fun t => pat.isPrefixOf t)

/-- Helper for `pySplit`: the accumulator holds the current word reversed. -/
def pySplitAux : Str → Str → List Str
  | acc, [] => if acc.isEmpty then [] else [acc.reverse]
  | acc, c :: rest =>
    if c.isWhitespace then
      (if acc.isEmpty then [] else [acc.reverse]) ++ pySplitAux [] rest
    else pySplitAux (c :: acc) rest

/-- Python `str.split()` with no argument: split on whitespace runs, dropping
empty pieces. -/
def pySplit (s : Str) : List Str := pySplitAux [] s

/-- Python `str.strip(chars)`: drop characters of `cs` from both ends. -/
def stripSet (cs : Str) (s : Str) : Str :=
  ((s.dropWhile cs.contains).reverse.dropWhile cs.contains).reverse

/-- Helper for `replaceAll` with explicit fuel so the recursion is structural;
the fuel starts at the length of the string and never runs out. -/
def replaceAllAux (pat rep : Str) : Nat → Str → Str
  | _, [] => []
  | 0, s => s
  | fuel + 1, c :: rest =>
    if pat.isPrefixOf (c :: rest) then
      rep ++ replaceAllAux pat rep fuel (rest.drop (pat.length - 1))
    else c :: replaceAllAux pat rep fuel rest

/-- Python `str.replace(pat, rep)`: replace all non-overlapping occurrences,
left to right. -/
def replaceAll (pat rep s : Str) : Str := replaceAllAux pat rep s.length s

/-- Decimal digit string of a natural number. -/
def natDigitsStr (n : Nat) : Str := (Nat.repr n).data

/-- Numeric value of a digit string (used for `float(...)` on matched digit
groups). -/
def digitsVal (s : Str) : Nat := s.foldl (fun a c => a * 10 + (c.toNat - 48)) 0

/-- The rational value of a decimal `±ip.fp` with digit strings `ip`, `fp`:
since `digitsVal (ip ++ fp) = digitsVal ip * 10 ^ |fp| + digitsVal fp`, this
is the exact value Python's `float` parses (these strings are short enough to
be exactly representable wherever a claim inspects the value). -/
def decValue (neg : Bool) (ip fp : Str) : ℚ :=
  mkRat (if neg then -(digitsVal (ip ++ fp) : Int) else (digitsVal (ip ++ fp) : Int))
    ((10 : Nat) ^ fp.length)

/-- Python `float(s)` on a string whose characters are already restricted to
digits, `.` and `-` (which is the only way the source calls it: every call
site first strips all other characters).  Returns `none` where `float` would
raise `ValueError`. -/
def parseCleanFloat (s : Str) : Option ℚ :=
  let (neg, body) : Bool × Str :=
    match s with
    | '-' :: rest => (true, rest)
    | _ => (false, s)
  if body.contains '-' then none
  else
    match body.splitOn '.' with
    | [ip] =>
      if ip.isEmpty then none
      else if ip.all Char.isDigit then some (decValue neg ip [])
      else none
    | [ip, fp] =>
      if ip.isEmpty && fp.isEmpty then none
      else if ip.all Char.isDigit && fp.all Char.isDigit then some (decValue neg ip fp)
      else none
    | _ => none

/-- Python `float(g)` on a regex group of shape `digits` or
`digits.digits`. -/
def qOfNumStr (s : Str) : ℚ :=
  match s.splitOn '.' with
  | [ip] => decValue false ip []
  | [ip, fp] => decValue false ip fp
  | _ => 0

/-- Fractional decimal digits of `rem / den` (with `rem < den`), fuel
bounding the expansion; models the digits Python prints for a float. -/
def fracDigitsAux (den : Nat) : Nat → Nat → Str
  | 0, _ => []
  | fuel + 1, rem =>
    if rem = 0 then []
    else
      let r10 := rem * 10
      (Nat.digitChar (r10 / den)) :: fracDigitsAux den fuel (r10 % den)

/-- Shallow model of Python `str(x)` on a float: sign, integer part, a dot and
the fractional digits (at least one, so integers print as `n.0`).  No claim
below inspects the exact digits; only that the result is a non-blank string
matters. -/
def numToStr (q : ℚ) : Str :=
  let sgn : Str := if q < 0 then ['-'] else []
  let m := q.num.natAbs
  let fd := fracDigitsAux q.den 17 (m % q.den)
  sgn ++ natDigitsStr (m / q.den) ++ '.' :: (if fd.isEmpty then ['0'] else fd)

/-! ## Python values

Plans arrive from the oracle as JSON-decoded Python objects; the validator and
the extractor are defensive and inspect the dynamic type of every part.  We
model the dynamic values the source can see. -/

/-- Dynamic Python value as seen by the planner and the extractor. -/
inductive PyVal where
  | none
  | str (s : Str)
  | num (q : ℚ)
  | bool (b : Bool)
  | list (l : List PyVal)
  | dict (l : List (Str × PyVal))

instance : Inhabited PyVal := ⟨PyVal.none⟩

/-- Whether a `PyVal` is a dict, as `isinstance(x, dict)`. -/
def PyVal.isDict : PyVal → Bool
  | .dict _ => true
  | _ => false

/-- Python `d.get(k)` on a dict (first binding wins; Python dicts cannot have
duplicate keys): missing keys yield `None`. -/
def dget (kvs : List (Str × PyVal)) (k : Str) : PyVal :=
  (kvs.lookup k).getD PyVal.none

/-- Python `d.get(k, default)`. -/
def dgetD (kvs : List (Str × PyVal)) (k : Str) (d : PyVal) : PyVal :=
  (kvs.lookup k).getD d

/-- Python truthiness of a value (`if x:`). -/
def pyTruthy : PyVal → Bool
  | .none => false
  | .str s => !s.isEmpty
  | .num q => q != 0
  | .bool b => b
  | .list l => !l.isEmpty
  | .dict l => !l.isEmpty

/-! ## Plan validator (`services/planner.py`) -/

/-- The forbidden selector sub-patterns, in the order the source checks
them. -/
def forbiddenFeatures : List Str :=
  [":has(", ":contains(", ":-soup-contains(", ":matches(", ":nth-match("].map (·.data)

/-- Embeds `_contains_unsupported_selector_features`: lowercase the selector,
look for a forbidden sub-pattern, then reject newlines and over-long
selectors; `some reason` means the selector is rejected. -/
def contains_unsupported_selector_features (sel : Str) : Option Str :=
  let s := lowerStr sel
  match forbiddenFeatures.find? (fun f => containsSub f s) with
  | some f => some (("Selector contains unsupported/forbidden feature: ").data ++ f)
  | none =>
    if sel.contains '\n' || sel.contains '\r' then some (("Selector contains newlines").data)
    else if sel.length > 200 then some (("Selector too long (likely brittle)").data)
    else none

/-- Error string `fields[i]` followed by a tail, as built by the f-strings in
`_validate_plan`. -/
def fieldErr (i : Nat) (tail : Str) : Str :=
  ("fields[").data ++ natDigitsStr i ++ (("]").data ++ tail)

/-- The five legal field type names. -/
def fieldTypeNames : List Str := ["text", "number", "url", "date", "bool"].map (·.data)

/-- Validation errors contributed by `fields[i]` in `_validate_plan` (the
`continue` for a non-dict entry produces exactly its one error). -/
def validateField (i : Nat) (f : PyVal) : List Str :=
  match f with
  | .dict fkv =>
    let nameErrs :=
      match dget fkv ("name").data with
      | .str s => if (trimStr s).isEmpty then [fieldErr i (".name must be a non-empty string.").data] else []
      | _ => [fieldErr i (".name must be a non-empty string.").data]
    let selErrs :=
      match dget fkv ("selector").data with
      | .str s =>
        if (trimStr s).isEmpty then [fieldErr i (".selector must be a non-empty string.").data]
        else
          match contains_unsupported_selector_features s with
          | some bad => [fieldErr i ((".selector invalid: ").data ++ bad)]
          | none => []
      | _ => [fieldErr i (".selector must be a non-empty string.").data]
    let typErrs :=
      match dget fkv ("type").data with
      | .str s => if fieldTypeNames.contains s then [] else [fieldErr i (".type must be one of text/number/url/date/bool.").data]
      | _ => [fieldErr i (".type must be one of text/number/url/date/bool.").data]
    let fbErrs :=
      match dget fkv ("fallback_selectors").data with
      | .list l =>
        if l.all (fun x => match x with | .str _ => true | _ => false) then
          (l.enum).foldr
            (fun (jx : Nat × PyVal) acc =>
              (match jx.2 with
               | .str s =>
                 match contains_unsupported_selector_features s with
                 | some bad =>
                   [fieldErr i ((".fallback_selectors[").data ++ natDigitsStr jx.1 ++ (("] invalid: ").data ++ bad))]
                 | none => []
               | _ => []) ++ acc) []
        else [fieldErr i (".fallback_selectors must be a list of strings.").data]
      | _ => [fieldErr i (".fallback_selectors must be a list of strings.").data]
    nameErrs ++ selErrs ++ typErrs ++ fbErrs
  | _ => [fieldErr i (" must be an object.").data]

/-- Embeds `_validate_plan`: collects all error strings in source order and
returns `ok` iff none accumulated (with the early return when `fields` is not
a non-empty list). -/
def validate_plan : PyVal → Bool × List Str
  | .dict kvs =>
    let icErrs :=
      match dget kvs ("item_container").data with
      | .str s =>
        if (trimStr s).isEmpty then [("item_container must be a non-empty string CSS selector.").data]
        else
          match contains_unsupported_selector_features s with
          | some bad => [("item_container invalid: ").data ++ bad]
          | none => []
      | _ => [("item_container must be a non-empty string CSS selector.").data]
    match dget kvs ("fields").data with
    | .list fs =>
      if fs.isEmpty then (false, icErrs ++ [("fields must be a non-empty list.").data])
      else
        let errs := icErrs ++ (fs.enum).foldr (fun (ix : Nat × PyVal) acc => validateField ix.1 ix.2 ++ acc) []
        (errs.isEmpty, errs)
    | _ => (false, icErrs ++ [("fields must be a non-empty list.").data])
  | _ => (false, [("Plan is not an object.").data])

/-! ## Plan generator (`services/planner.py`)

The LLM is an injected request/response capability: a function from the
message list of a request to the JSON-decoded plan of its response.  Oracle
transport failures (timeout, unparsable payload) raise outside this state
machine and are not modelled: the capability is total. -/

/-- One chat turn. -/
structure Message where
  role : Str
  content : Str

/-- Result record of a successful generation (`PlanResult`). -/
structure PlanResult where
  plan : PyVal
  model : Str
  attempts : Nat

/-- The fixed system instructions of `_build_messages`. -/
def plannerSystemText : Str :=
  ("You are a web scraping planner.\n").data ++
  ("Given a user").data ++ [apos] ++ ("s extraction request and cleaned HTML/text, output a strict JSON extraction plan.\n\n").data ++
  ("VERY IMPORTANT RULES:\n").data ++
  ("- Output JSON ONLY (no markdown, no explanation).\n").data ++
  ("- item_container MUST be a SIMPLE CSS selector supported by BeautifulSoup/SoupSieve.\n").data ++
  ("- DO NOT use advanced selectors like :has(), :contains(), :-soup-contains(), :matches().\n").data ++
  ("- Filtering like ").data ++ [apos] ++ ("only hoodies").data ++ [apos] ++ (" or ").data ++ [apos] ++ ("above 10k").data ++ [apos] ++ (" MUST NOT be encoded into CSS selectors.\n").data ++
  ("- Instead: extract enough fields so the app can filter later (example: product_type/subtitle + price).\n").data ++
  ("- Field selectors should be simple and stable (classes, data-testid attributes).\n").data ++
  ("- Always include fallback_selectors array (can be empty).\n").data

/-- Embeds `_build_messages`. -/
def build_messages (user_prompt cleaned_html cleaned_text : Str) : List Message :=
  [⟨("system").data, plannerSystemText⟩,
   ⟨("user").data,
    ("USER PROMPT:\n").data ++ user_prompt ++
    ("\n\nCLEANED HTML (truncated):\n").data ++ cleaned_html ++
    ("\n\nCLEANED TEXT (truncated):\n").data ++ cleaned_text ++ ("\n").data⟩]

/-- Python `sep.join(parts)`. -/
def joinWith (sep : Str) : List Str → Str
  | [] => []
  | [s] => s
  | s :: rest => s ++ sep ++ joinWith sep rest

/-- The extra feedback turn appended for the retry request in `call_once`. -/
def feedbackMessage (fb : Str) : Message :=
  ⟨("user").data,
   ("The previous plan failed validation.\nFix the plan according to this feedback:\n").data ++ fb⟩

/-- The feedback text built from the first attempt's validation errors. -/
def feedbackText (errs : List Str) : Str :=
  ("Plan validation errors:\n").data ++
    joinWith ("\n").data (errs.map (fun e => ("- ").data ++ e))

/-- Embeds `generate_extraction_plan`: validate the first oracle response;
on failure retry exactly once with the feedback turn; on a second failure
raise `RuntimeError` whose message carries every second-attempt error. -/
def generate_extraction_plan (oracle : List Message → PyVal)
    (user_prompt cleaned_html cleaned_text : Str) (model : Str) :
    Except Str PlanResult :=
  let messages := build_messages user_prompt cleaned_html cleaned_text
  let plan := oracle messages
  let v := validate_plan plan
  if v.1 then .ok ⟨plan, model, 1⟩
  else
    let plan2 := oracle (messages ++ [feedbackMessage (feedbackText v.2)])
    let v2 := validate_plan plan2
    if v2.1 then .ok ⟨plan2, model, 2⟩
    else .error (("Plan validation failed after retry:\n").data ++ joinWith ("\n").data v2.2)

/-! ## Row values

Rows flowing through the filter and the normalizer map field names to loosely
typed Python scalars.  `nan` is pandas' missing-value float, which behaves
differently from `None` in the normalizer. -/

/-- A Python scalar held in a row cell. -/
inductive Val where
  | none
  | nan
  | str (s : Str)
  | num (q : ℚ)
  | bool (b : Bool)
deriving DecidableEq

instance : Inhabited Val := ⟨Val.none⟩

/-- Python `str(x)` on a scalar. -/
def pyStr : Val → Str
  | .none => ("None").data
  | .nan => ("nan").data
  | .str s => s
  | .num q => numToStr q
  | .bool b => if b then ("True").data else ("False").data

/-! ## Filter compiler and applier (`services/filtering.py`) -/

/-- Embeds `_norm`: strip, lowercase, collapse whitespace runs. -/
def norm (s : Str) : Str := collapseWs (lowerStr (trimStr s))

/-- Embeds `_row_text`: join the string forms of all non-`None` values with
single spaces and normalize. -/
def row_text (r : List (Str × Val)) : Str :=
  norm (joinWith [' '] ((r.filter (fun kv => kv.2 != Val.none)).map (fun kv => pyStr kv.2)))

/-- Embeds `_to_float`.  `int`/`float` inputs (including Python `bool`, an
`int` subclass) convert directly; strings are stripped of currency symbols and
of everything but digits, dot, comma and minus, then de-comma'd and parsed.
`float('nan')` compares false under every comparison operator used in
`passes_numeric`, so resolving it to `none` (dropping the row) is
behavior-preserving. -/
def to_float : Val → Option ℚ
  | .none => Option.none
  | .num q => some q
  | .bool b => some (if b then 1 else 0)
  | .nan => Option.none
  | .str s0 =>
    let s := trimStr s0
    if s.isEmpty then Option.none
    else
      let s1 := s.filter (fun c => !(['₹', '$', '€'].contains c))
      let s2 := (s1.filter (fun c => c.isDigit || c == '.' || c == ',' || c == '-')).filter (fun c => c != ',')
      parseCleanFloat s2

/-- A regex word character, `[a-zA-Z0-9_]` (the prompts the compiler sees are
already lowercased ASCII). -/
def isWordChar (c : Char) : Bool := c.isAlphanum || c == '_'

/-- A `\b` word boundary holds before a word character iff the previous
character (if any) is not a word character. -/
def noWordBefore : Option Char → Bool
  | Option.none => true
  | some c => !isWordChar c

/-- A trailing `\b` after a word character holds iff the next character (if
any) is not a word character. -/
def nextNonWord : Str → Bool
  | [] => true
  | c :: _ => !isWordChar c

/-- Leftmost-match search for a pattern that starts with `\b` followed by a
word character: try the matcher at every position whose previous character is
not a word character, in order.  This is `re.search` for such patterns. -/
def scanOptB {α : Type} (f : Str → Option α) : Option Char → Str → Option α
  | _, [] => Option.none
  | prev, c :: rest =>
    match (if noWordBefore prev then f (c :: rest) else Option.none) with
    | some r => some r
    | Option.none => scanOptB f (some c) rest

/-- Leftmost-match search with no leading boundary: try the matcher at every
position (including the final empty suffix), in order. -/
def scanOpt {α : Type} (f : Str → Option α) : Str → Option α
  | [] => f []
  | c :: rest =>
    match f (c :: rest) with
    | some r => some r
    | Option.none => scanOpt f rest

/-- A character of the phrase class `[a-z0-9\-\s']`. -/
def phraseClassChar (c : Char) : Bool :=
  ('a' ≤ c && c ≤ 'z') || c.isDigit || c == '-' || c.isWhitespace || c == apos

/-- Matcher for `kw` + `\s+([a-z0-9\-\s']{3,})` at the current position.
`\s+` is greedy but whitespace is also a phrase-class character, so with `m`
the whitespace-run length and `L` the phrase-class-run length after `kw`
(`m ≤ L`), backtracking gives `\s+` the largest `k ≤ m` leaving a group of at
least 3 characters: the match succeeds iff `m ≥ 1` and `L ≥ 4`, with
`k = min m (L - 3)`, and the group is the class run after those `k`
whitespace characters. -/
def matchKwPhrase (kw : Str) (s : Str) : Option Str :=
  if kw.isPrefixOf s then
    let rest := s.drop kw.length
    let m := (rest.takeWhile Char.isWhitespace).length
    let L := (rest.takeWhile phraseClassChar).length
    if m == 0 || L < 4 then Option.none
    else
      let k := min m (L - 3)
      some ((rest.drop k).take (L - k))
  else Option.none

/-- The alternatives of the phrase separator `re.split` pattern, in order. -/
def separatorPats : List Str :=
  (["with", "having", "that", "where", "which", "and", ",", ":"]).map (·.data)

/-- `re.split(sep_pattern, phrase)[0]`: the prefix of the phrase before the
leftmost occurrence of any separator alternative. -/
def splitFirstSep : Str → Str
  | [] => []
  | c :: rest =>
    if separatorPats.any (fun sp => sp.isPrefixOf (c :: rest)) then []
    else c :: splitFirstSep rest

/-- The stop words dropped by `_expand_only_phrase`. -/
def stop_words : List Str :=
  (["product", "products", "item", "items", "collection", "collections",
    "for", "the", "a", "an", "only", "just", "strictly",
    "category", "categories", "type", "types"]).map (·.data)

/-- The characters stripped from token ends by `_expand_only_phrase`
(space, comma, dot, apostrophe, double quote). -/
def tokenStripChars : Str := [' ', ',', '.', apos, '"']

/-- The six sequential `str.replace` calls normalizing gender-suffix
variants, in source order. -/
def genderNorm (t : Str) : Str :=
  let t1 := replaceAll ("womens").data ("women").data t
  let t2 := replaceAll (("women").data ++ [rsquo, 's']) ("women").data t1
  let t3 := replaceAll (("women").data ++ [apos, 's']) ("women").data t2
  let t4 := replaceAll ("mens").data ("men").data t3
  let t5 := replaceAll (("men").data ++ [rsquo, 's']) ("men").data t4
  replaceAll (("men").data ++ [apos, 's']) ("men").data t5

/-- Embeds `_expand_only_phrase`: normalize, split on whitespace, strip
punctuation per token, drop empties and stop words, then normalize gender
variants. -/
def expand_only_phrase (phrase : Str) : List Str :=
  let ph := norm phrase
  let tokens := (pySplit ph).map (stripSet tokenStripChars)
  let kept := tokens.filter (fun t => !t.isEmpty && !stop_words.contains t)
  kept.map genderNorm

/-- Keyword extraction shared by the `only`, `exclude` and `without` branches
of `parse_filters_from_prompt`: search for the keyword phrase pattern, cut the
captured group at the first separator, tokenize; fall back to the whole
phrase when tokenization yields nothing but the phrase is non-empty. -/
def phraseKeywords (kw : Str) (p : Str) : List Str :=
  match scanOptB (matchKwPhrase kw) Option.none p with
  | Option.none => []
  | some g =>
    let phrase := trimStr (splitFirstSep (trimStr g))
    let tokens := expand_only_phrase phrase
    if !tokens.isEmpty then tokens
    else if !phrase.isEmpty then [phrase]
    else []

/-- The field-word alternatives of numeric pattern (a), in order (their first
letters are pairwise distinct, so at most one can match at a position). -/
def fieldWords : List Str := (["price", "mrp", "amount", "cost", "rating", "score"]).map (·.data)

/-- The comparator alternatives `(>=|<=|>|<|=)`, in order (`>=` before `>`). -/
def cmpOps : List Str := ([">=", "<=", ">", "<", "="]).map (·.data)

/-- The optional fractional group `(\.\d+)?` after a digit run; greedy and
final, so maximal munch is exact. -/
def matchFracOpt : Str → Str
  | '.' :: rest =>
    let ds := rest.takeWhile Char.isDigit
    if ds.isEmpty then [] else '.' :: ds
  | _ => []

/-- Matcher for numeric pattern (a),
`\b(price|mrp|amount|cost|rating|score)\s*(>=|<=|>|<|=)\s*(\d+(\.\d+)?)`, at
the current position (the leading `\b` is enforced by `scanOptB`).  `\s*`
runs are greedy and never need backtracking because neither comparators nor
digits contain whitespace. -/
def matchFieldOp (s : Str) : Option (Str × Str × Str) :=
  fieldWords.findSome? fun w =>
    if w.isPrefixOf s then
      let rest := (s.drop w.length).dropWhile Char.isWhitespace
      cmpOps.findSome? fun op =>
        if op.isPrefixOf rest then
          let rest2 := (rest.drop op.length).dropWhile Char.isWhitespace
          let ds := rest2.takeWhile Char.isDigit
          if ds.isEmpty then Option.none
          else some (w, op, ds ++ matchFracOpt (rest2.drop ds.length))
        else Option.none
    else Option.none

/-- The direction alternatives of patterns (b) and (d), in source order. -/
def aboveWords : List Str := (["above", "over", "greater than"]).map (·.data)

/-- The direction alternatives of patterns (c) and (e), in source order. -/
def belowWords : List Str := (["below", "under", "less than"]).map (·.data)

/-- Matcher for patterns (b)/(c), `\b(dir)\s+(\d+)\s*k\b`, at the current
position.  The digit run is maximal: shrinking it would leave a digit where
`\s*k` must match, so backtracking never succeeds. -/
def matchDirNumK (words : List Str) (s : Str) : Option (Str × Str) :=
  words.findSome? fun w =>
    if w.isPrefixOf s then
      let rest := s.drop w.length
      let sp := rest.takeWhile Char.isWhitespace
      if sp.isEmpty then Option.none
      else
        let rest2 := rest.drop sp.length
        let ds := rest2.takeWhile Char.isDigit
        if ds.isEmpty then Option.none
        else
          match (rest2.drop ds.length).dropWhile Char.isWhitespace with
          | 'k' :: tail => if nextNonWord tail then some (w, ds) else Option.none
          | _ => Option.none
    else Option.none

/-- Matcher for patterns (d)/(e), `\b(dir)\s+(\d{3,})\b`, at the current
position.  The digit run is maximal: shrinking it would put a digit (a word
character) right after the group, violating the trailing `\b`. -/
def matchDirNum3 (words : List Str) (s : Str) : Option (Str × Str) :=
  words.findSome? fun w =>
    if w.isPrefixOf s then
      let rest := s.drop w.length
      let sp := rest.takeWhile Char.isWhitespace
      if sp.isEmpty then Option.none
      else
        let rest2 := rest.drop sp.length
        let ds := rest2.takeWhile Char.isDigit
        if ds.length < 3 then Option.none
        else if nextNonWord (rest2.drop ds.length) then some (w, ds) else Option.none
    else Option.none

/-- Matcher for pattern (f), `(>=|<=|>|<|=)\s*(\d{3,}(\.\d+)?)`, at the
current position (no word boundaries in this pattern). -/
def matchOpNum3 (s : Str) : Option (Str × Str) :=
  cmpOps.findSome? fun op =>
    if op.isPrefixOf s then
      let rest := (s.drop op.length).dropWhile Char.isWhitespace
      let ds := rest.takeWhile Char.isDigit
      if ds.length < 3 then Option.none
      else some (op, ds ++ matchFracOpt (rest.drop ds.length))
    else Option.none

/-- One numeric filter `{field_hint, op, value}`; `value` is optional because
`apply_filter_spec` skips filters whose `value` is `None`. -/
structure NumFilter where
  field_hint : Str
  op : Str
  value : Option ℚ
deriving DecidableEq

/-- The compiled filter specification. -/
structure FilterSpec where
  include_keywords : List Str
  exclude_keywords : List Str
  numeric_filters : List NumFilter
deriving DecidableEq

/-- Handler for a direction-word match: field hint `price`, operator from the
membership test `direction in ["above", "over", "greater than"]`. -/
def dirFilter (direction : Str) (v : ℚ) : NumFilter :=
  ⟨("price").data, (if aboveWords.contains direction then (">").data else ("<").data), some v⟩

/-- The numeric-pattern loop of `parse_filters_from_prompt`: the six patterns
are tried in priority order and the loop breaks at the first match (for
pattern (f) after re-checking that the matched group is a comparator, which
the regex guarantees). -/
def numericFiltersOf (p : Str) : List NumFilter :=
  match scanOptB matchFieldOp Option.none p with
  | some r => [⟨r.1, r.2.1, some (qOfNumStr r.2.2)⟩]
  | Option.none =>
  match scanOptB (matchDirNumK aboveWords) Option.none p with
  | some r => [dirFilter r.1 ((digitsVal r.2 * 1000 : Nat) : ℚ)]
  | Option.none =>
  match scanOptB (matchDirNumK belowWords) Option.none p with
  | some r => [dirFilter r.1 ((digitsVal r.2 * 1000 : Nat) : ℚ)]
  | Option.none =>
  match scanOptB (matchDirNum3 aboveWords) Option.none p with
  | some r => [dirFilter r.1 (digitsVal r.2 : ℚ)]
  | Option.none =>
  match scanOptB (matchDirNum3 belowWords) Option.none p with
  | some r => [dirFilter r.1 (digitsVal r.2 : ℚ)]
  | Option.none =>
  match scanOpt matchOpNum3 p with
  | some r =>
    if ([">", ">=", "<", "<=", "="]).map (·.data) |>.contains r.1 then
      [⟨("price").data, r.1, some (qOfNumStr r.2)⟩]
    else []
  | Option.none => []

/-- Embeds `parse_filters_from_prompt`: normalize the prompt, extract the
`only` phrase, extract keywords for each matching exclude pattern (the loop
has no break, so both `exclude` and `without` can contribute), then run the
numeric-pattern loop. -/
def parse_filters_from_prompt (prompt : Str) : FilterSpec :=
  let p := norm prompt
  ⟨phraseKeywords ("only").data p,
   phraseKeywords ("exclude").data p ++ phraseKeywords ("without").data p,
   numericFiltersOf p⟩

/-- The synonym mapping of `get_numeric_value`:
`mapping.get(hint, [hint])`. -/
def mappingGet (hint : Str) : List Str :=
  if hint = ("price").data then (["price", "mrp", "amount", "cost"]).map (·.data)
  else if hint = ("rating").data then (["rating", "score"]).map (·.data)
  else [hint]

/-- Embeds `get_numeric_value`: first row key containing the normalized hint
wins (its value is converted even if unparsable); otherwise the first key
containing any synonym candidate; otherwise `none`. -/
def get_numeric_value (row : List (Str × Val)) (field_hint : Str) : Option ℚ :=
  let hint := norm field_hint
  match row.find? (fun kv => containsSub hint (norm kv.1)) with
  | some kv => to_float kv.2
  | Option.none =>
    let candidates := mappingGet hint
    match row.find? (fun kv => candidates.any (fun c => containsSub c (norm kv.1))) with
    | some kv => to_float kv.2
    | Option.none => Option.none

/-- Embeds `passes_numeric` (unknown operators pass). -/
def passes_numeric (v : ℚ) (op : Str) (target : ℚ) : Bool :=
  if op = (">").data then v > target
  else if op = (">=").data then v ≥ target
  else if op = ("<").data then v < target
  else if op = ("<=").data then v ≤ target
  else if op = ("=").data then v = target
  else true

/-- Embeds `apply_filter_spec`: include keywords (ALL when several, ANY for a
singleton), then exclude keywords, then the numeric filters in order, each
narrowing the surviving rows. -/
def apply_filter_spec (rows : List (List (Str × Val))) (spec : FilterSpec) :
    List (List (Str × Val)) :=
  let include_keywords := (spec.include_keywords.filter (fun k => !k.isEmpty)).map norm
  let exclude_keywords := (spec.exclude_keywords.filter (fun k => !k.isEmpty)).map norm
  let f1 :=
    if !include_keywords.isEmpty then
      rows.filter (fun r =>
        let t := row_text r
        if include_keywords.length > 1 then include_keywords.all (fun k => containsSub k t)
        else include_keywords.any (fun k => containsSub k t))
    else rows
  let f2 :=
    if !exclude_keywords.isEmpty then
      f1.filter (fun r => !exclude_keywords.any (fun k => containsSub k (row_text r)))
    else f1
  spec.numeric_filters.foldl
    (fun cur nf =>
      match nf.value with
      | Option.none => cur
      | some target =>
        cur.filter (fun r =>
          match get_numeric_value r nf.field_hint with
          | Option.none => false
          | some v => passes_numeric v nf.op target))
    f2

/-! ## Extraction engine (`services/extractor.py`)

The parsed document is the capability interface the engine actually uses:
select all elements matching a selector at the top level, select the first
match inside an element, and read an element's visible text and attribute
list.  Elements are opaque ids. -/

/-- Document capability: `soup.select`, `element.select_one`,
`element.get_text(" ", strip=True)` and `element.attrs` (an ordered mapping
with unique keys). -/
structure HtmlDoc where
  selectAll : Str → List Nat
  selectOne : Nat → Str → Option Nat
  textOf : Nat → Str
  attrsOf : Nat → List (Str × Str)

/-- Embeds `_first_match`: try the selectors in order, skipping blank
entries; the first selector with a match inside the item wins. -/
def first_match (doc : HtmlDoc) (item : Nat) : List Str → Option Nat
  | [] => Option.none
  | sel :: rest =>
    if sel.isEmpty || (trimStr sel).isEmpty then first_match doc item rest
    else
      match doc.selectOne item sel with
      | some el => some el
      | Option.none => first_match doc item rest

/-- Embeds `_extract_text`: the element's visible text, stripped. -/
def extract_text (doc : HtmlDoc) (el : Nat) : Str := trimStr (doc.textOf el)

/-- The attribute-scan fallback of `_extract_url`: the first attribute whose
name contains `href` case-insensitively with a non-blank value; otherwise the
text. -/
def extract_url_fallback (doc : HtmlDoc) (el : Nat) : Str :=
  match (doc.attrsOf el).find?
      (fun kv => containsSub ("href").data (lowerStr kv.1) && !(trimStr kv.2).isEmpty) with
  | some kv => trimStr kv.2
  | Option.none => extract_text doc el

/-- Embeds `_extract_url`: a truthy `href` attribute wins; otherwise fall
back to the attribute scan and finally the text. -/
def extract_url (doc : HtmlDoc) (el : Nat) : Str :=
  match ((doc.attrsOf el).lookup ("href").data) with
  | some h =>
    if !h.isEmpty then trimStr h
    else extract_url_fallback doc el
  | Option.none => extract_url_fallback doc el

/-- Embeds `_to_number`: keep digits, dot, comma and minus, drop commas,
reject the degenerate strings the source lists, then parse as float. -/
def to_number (s : Str) : Option ℚ :=
  let s := trimStr s
  if s.isEmpty then Option.none
  else
    let s2 := (s.filter (fun c => c.isDigit || c == '.' || c == ',' || c == '-')).filter (fun c => c != ',')
    if s2 = [] || s2 = ['-'] || s2 = ['.'] || s2 = ['-', '.'] then Option.none
    else parseCleanFloat s2

/-- The positive boolean literals. -/
def boolTrueLits : List Str := (["true", "yes", "available", "in stock"]).map (·.data)

/-- The negative boolean literals. -/
def boolFalseLits : List Str := (["false", "no", "unavailable", "out of stock"]).map (·.data)

/-- Embeds `_extract_by_type`: `None` element gives `None`; otherwise coerce
the element by the field type (non-string or unknown types fall through to
the text branch). -/
def extract_by_type (doc : HtmlDoc) (el : Option Nat) (ftype : PyVal) : Val :=
  match el with
  | Option.none => Val.none
  | some e =>
    match ftype with
    | .str t =>
      if t = ("text").data then Val.str (extract_text doc e)
      else if t = ("url").data then Val.str (extract_url doc e)
      else if t = ("number").data then
        match to_number (extract_text doc e) with
        | some q => Val.num q
        | Option.none => Val.none
      else if t = ("bool").data then
        let txt := lowerStr (extract_text doc e)
        if boolTrueLits.contains txt then Val.bool true
        else if boolFalseLits.contains txt then Val.bool false
        else Val.none
      else if t = ("date").data then Val.str (extract_text doc e)
      else Val.str (extract_text doc e)
    | _ => Val.str (extract_text doc e)

/-- Python `row[k] = v` on a dict modelled as an association list: an
existing key keeps its position and gets the new value, a new key is
appended. -/
def dinsert (row : List (Str × Val)) (k : Str) (v : Val) : List (Str × Val) :=
  if row.any (fun kv => kv.1 == k) then
    row.map (fun kv => if kv.1 == k then (k, v) else kv)
  else row ++ [(k, v)]

/-- The selector attempt list built for a field dict: the stripped main
selector if it is a non-blank string, then the stripped non-blank string
fallbacks. -/
def selectorsOf (fkv : List (Str × PyVal)) : List Str :=
  (match dget fkv ("selector").data with
   | .str ss => if (trimStr ss).isEmpty then [] else [trimStr ss]
   | _ => []) ++
  (match dgetD fkv ("fallback_selectors").data (PyVal.list []) with
   | .list l =>
     (l.filterMap (fun x =>
       match x with
       | .str xs => if (trimStr xs).isEmpty then Option.none else some (trimStr xs)
       | _ => Option.none))
   | _ => [])

/-- The value the engine computes for one field of one item. -/
def fieldValue (doc : HtmlDoc) (item : Nat) (fkv : List (Str × PyVal)) : Val :=
  extract_by_type doc (first_match doc item (selectorsOf fkv))
    (dgetD fkv ("type").data (PyVal.str ("text").data))

/-- One iteration of the field loop of `extract_rows_from_plan`: fields
without a non-blank string name are skipped (`continue`), otherwise the row
dict gets the field's value under the stripped name. -/
def rowStep (doc : HtmlDoc) (item : Nat) (row : List (Str × Val)) (f : PyVal) : List (Str × Val) :=
  match f with
  | .dict fkv =>
    (match dget fkv ("name").data with
     | .str ns =>
       if (trimStr ns).isEmpty then row
       else dinsert row (trimStr ns) (fieldValue doc item fkv)
     | _ => row)
  | _ => row

/-- The inner field loop of `extract_rows_from_plan` building a row dict for
one matched item. -/
def build_row (doc : HtmlDoc) (fields : List PyVal) (item : Nat) : List (Str × Val) :=
  fields.foldl (rowStep doc item) []

/-- The row-retention test: at least one value is not `None` and its string
form is non-blank after stripping. -/
def rowKeep (row : List (Str × Val)) : Bool :=
  row.any (fun kv => kv.2 != Val.none && !(trimStr (pyStr kv.2)).isEmpty)

/-- Result of `extract_rows_from_plan`. -/
structure ExtractResult where
  rows : List (List (Str × Val))
  item_count : Nat

/-- Embeds `extract_rows_from_plan`.  The defensive re-checks raise
`ValueError` (`.error`); a field entry without `.get` (any non-dict) raises
`AttributeError` inside the loop, which only runs when at least one item
matched — modelled as the dedicated error below.  Otherwise every element
matching `item_container` yields a candidate row, and rows failing
`rowKeep` are dropped silently. -/
def extract_rows_from_plan (doc : HtmlDoc) (plan : PyVal) : Except Str ExtractResult :=
  match plan with
  | .dict kvs =>
    let item_sel := dget kvs ("item_container").data
    let fields := dget kvs ("fields").data
    match item_sel with
    | .str s =>
      if s.isEmpty then .error ("plan.item_container is missing or invalid").data
      else
        match fields with
        | .list fs =>
          if fs.isEmpty then .error ("plan.fields is missing or invalid").data
          else
            let items := doc.selectAll s
            if !items.isEmpty && fs.any (fun f => !f.isDict) then
              .error ("field entry has no attribute get").data
            else
              .ok ⟨(items.map (build_row doc fs)).filter rowKeep, items.length⟩
        | _ => .error ("plan.fields is missing or invalid").data
    | _ => .error ("plan.item_container is missing or invalid").data
  | _ => .error ("plan must be a dict").data

/-! ## Row normalizer (`services/postprocess.py`)

`pd.DataFrame(rows)` makes the column set the union of the row keys in
first-seen order and fills missing cells with `NaN`.  The per-column cleaners
are applied elementwise; `df.dropna(how="all")` drops all-NA rows (both
`None` and `NaN` count as NA); `df.drop_duplicates()` keeps first occurrences,
grouping all NA values together when comparing cells (pandas factorizes `None`
and `NaN` to the same missing sentinel). -/

/-- The literal junk tokens `_clean_text` maps to `None`. -/
def junkWords : List Str := (["none", "null", "na", "n/a", "-"]).map (·.data)

/-- The string pipeline of `_clean_text`: strip, reject empties, collapse
whitespace and strip again, reject the junk literals. -/
def cleanTextStr (s0 : Str) : Val :=
  let s := trimStr s0
  if s.isEmpty then Val.none
  else
    let s2 := trimStr (collapseWs s)
    if junkWords.contains (lowerStr s2) then Val.none else Val.str s2

/-- Embeds `_clean_text`: `None` stays `None`, any other value goes through
`str(x)` and the string pipeline.  Note `str(nan) = "nan"` is not in the junk
list, so a missing cell in a text column becomes the string `"nan"`. -/
def clean_text : Val → Val
  | .none => Val.none
  | v => cleanTextStr (pyStr v)

/-- Embeds `_clean_number`.  Python `bool` is an `int` instance, so booleans
convert to `1.0`/`0.0`; `NaN` passes through `float(x)` unchanged. -/
def clean_number : Val → Val
  | .none => Val.none
  | .nan => Val.nan
  | .num q => Val.num q
  | .bool b => Val.num (if b then 1 else 0)
  | .str s0 =>
    let s := trimStr s0
    if s.isEmpty then Val.none
    else
      let s1 := s.filter (fun c => !(['₹', '$', '€'].contains c))
      let s2 := (s1.filter (fun c => c.isDigit || c == '.' || c == ',' || c == '-')).filter (fun c => c != ',')
      if s2 = [] || s2 = ['-'] || s2 = ['.'] || s2 = ['-', '.'] then Val.none
      else
        match parseCleanFloat s2 with
        | some q => Val.num q
        | Option.none => Val.none

/-- The column-name substrings that select number cleaning. -/
def numericHintWords : List Str := (["price", "amount", "mrp", "rating", "score", "count"]).map (·.data)

/-- Whether a column is cleaned as a number: its lowered name contains one of
the numeric hint words. -/
def isNumericCol (c : Str) : Bool := numericHintWords.any (fun k => containsSub k (lowerStr c))

/-- Whether a cell counts as missing for `dropna`/`drop_duplicates`. -/
def isNA : Val → Bool
  | .none => true
  | .nan => true
  | _ => false

/-- The normalized table: column names plus a row-major cell grid. -/
structure Table where
  cols : List Str
  cells : List (List Val)
deriving DecidableEq

/-- Column names in first-seen order across the input rows
(`pd.DataFrame(rows).columns`). -/
def colsOf (rows : List (List (Str × Val))) : List Str :=
  rows.foldl (fun acc r => r.foldl (fun acc2 kv => if acc2.contains kv.1 then acc2 else acc2 ++ [kv.1]) acc) []

/-- One key-collection step of `colsOf`: append the key if unseen. -/
def colStep (acc : List Str) (kv : Str × Val) : List Str :=
  if acc.contains kv.1 then acc else acc ++ [kv.1]

/-- One dataframe row: the row's value per column, `NaN` where the key is
missing. -/
def gridRow (cols : List Str) (r : List (Str × Val)) : List Val :=
  cols.map (fun c => (r.lookup c).getD Val.nan)

/-- Apply the per-column cleaner to one grid row. -/
def cleanRow (cols : List Str) (row : List Val) : List Val :=
  (cols.zip row).map (fun cv => if isNumericCol cv.1 then clean_number cv.2 else clean_text cv.2)

/-- The duplicate key of a cell: all NA values compare equal in
`drop_duplicates`. -/
def valKey (v : Val) : Val := if isNA v then Val.nan else v

/-- `df.drop_duplicates()`: keep the first occurrence of each row, comparing
rows by their cell keys. -/
def dedupRows (seen : List (List Val)) : List (List Val) → List (List Val)
  | [] => []
  | r :: rest =>
    let k := r.map valKey
    if seen.contains k then dedupRows seen rest
    else r :: dedupRows (k :: seen) rest

/-- Embeds `postprocess_rows` (the dataframe and duplicate count; csv
serialization is a pure function of the table and is not modelled).  An empty
input short-circuits to the empty, column-less dataframe. -/
def postprocess_rows (rows : List (List (Str × Val))) : Table × Nat :=
  if rows.isEmpty then (⟨[], []⟩, 0)
  else
    let cols := colsOf rows
    let cleaned := rows.map (fun r => cleanRow cols (gridRow cols r))
    let kept := cleaned.filter (fun row => !row.all isNA)
    let dd := dedupRows [] kept
    (⟨cols, dd⟩, kept.length - dd.length)

/-- `df.to_dict("records")`: the rows of a table, fed back to the normalizer
when re-applying it to its own output. -/
def tableToRows (t : Table) : List (List (Str × Val)) :=
  t.cells.map (fun r => t.cols.zip r)

/-! ## General lemmas -/

lemma containsSub_infix_iff (pat s : Str) : containsSub pat s = true ↔ pat <:+: s := by
  unfold containsSub
  rw [List.any_eq_true]
  constructor
  · rintro ⟨t, ht, hp⟩
    exact List.infix_iff_prefix_suffix.mpr
      ⟨t, List.isPrefixOf_iff_prefix.mp hp, (List.mem_tails _ _).mp ht⟩
  · intro h
    obtain ⟨t, hp, hs⟩ := List.infix_iff_prefix_suffix.mp h
    exact ⟨t, (List.mem_tails _ _).mpr hs, List.isPrefixOf_iff_prefix.mpr hp⟩

lemma foldl_sublist_of_step {α β : Type} (f : List α → β → List α)
    (h : ∀ cur b, (f cur b).Sublist cur) :
    ∀ (l : List β) (init : List α), (l.foldl f init).Sublist init := by
  intro l
  induction l with
  | nil => intro init; exact List.Sublist.refl init
  | cons b rest ih => intro init; exact (ih (f init b)).trans (h init b)

lemma ite_filter_sublist {α : Type} (c : Bool) (l : List α) (p : α → Bool) :
    (if c = true then l.filter p else l).Sublist l := by
  split
  · exact List.filter_sublist l
  · exact List.Sublist.refl l

/-! ## Claim C10 -/

/-- C10: the filter applier never mutates rows: for every list of rows and
every filter spec, the result is an order-preserving subsequence of the input
whose surviving rows are the very row mappings passed in. -/
theorem C10_filter_applier_no_mutation (rows : List (List (Str × Val))) (spec : FilterSpec) :
    (apply_filter_spec rows spec).Sublist rows := by
  simp only [apply_filter_spec]
  refine (foldl_sublist_of_step _ ?_ _ _).trans
    ((ite_filter_sublist _ _ _).trans (ite_filter_sublist _ _ _))
  intro cur nf
  cases nf.value
  · exact List.Sublist.refl cur
  · exact List.filter_sublist cur

/-! ## Claim C1 -/

/-- The first oracle response in a run of the plan generator. -/
def attempt1Plan (oracle : List Message → PyVal) (up ch ct : Str) : PyVal :=
  oracle (build_messages up ch ct)

/-- The message list of the retry request (the original turns plus the
feedback turn built from the first attempt's validation errors). -/
def attempt2Messages (oracle : List Message → PyVal) (up ch ct : Str) : List Message :=
  build_messages up ch ct ++
    [feedbackMessage (feedbackText (validate_plan (attempt1Plan oracle up ch ct)).2)]

/-- The second oracle response in a run of the plan generator. -/
def attempt2Plan (oracle : List Message → PyVal) (up ch ct : Str) : PyVal :=
  oracle (attempt2Messages oracle up ch ct)

/-- C1: quantified over every oracle capability (hence every pair of oracle
responses): a valid first candidate is returned with attempt count 1; an
invalid first and valid second candidate returns the second with attempt
count 2; two invalid candidates raise the fatal error carrying the full
second-attempt error list; and the outcome depends only on the two responses,
so no third oracle request is consulted. -/
theorem C1_plan_generator_two_attempts (oracle : List Message → PyVal) (up ch ct m : Str) :
    ((validate_plan (attempt1Plan oracle up ch ct)).1 = true →
      generate_extraction_plan oracle up ch ct m =
        Except.ok ⟨attempt1Plan oracle up ch ct, m, 1⟩) ∧
    ((validate_plan (attempt1Plan oracle up ch ct)).1 = false →
      (validate_plan (attempt2Plan oracle up ch ct)).1 = true →
      generate_extraction_plan oracle up ch ct m =
        Except.ok ⟨attempt2Plan oracle up ch ct, m, 2⟩) ∧
    ((validate_plan (attempt1Plan oracle up ch ct)).1 = false →
      (validate_plan (attempt2Plan oracle up ch ct)).1 = false →
      generate_extraction_plan oracle up ch ct m =
        Except.error (("Plan validation failed after retry:\n").data ++
          joinWith ("\n").data (validate_plan (attempt2Plan oracle up ch ct)).2)) ∧
    (∀ oracle2 : List Message → PyVal,
      oracle2 (build_messages up ch ct) = attempt1Plan oracle up ch ct →
      oracle2 (attempt2Messages oracle up ch ct) = attempt2Plan oracle up ch ct →
      generate_extraction_plan oracle2 up ch ct m = generate_extraction_plan oracle up ch ct m) := by
  refine ⟨?_, ?_, ?_, ?_⟩
  · intro h1
    simp only [generate_extraction_plan, attempt1Plan] at h1 ⊢
    rw [h1]
    simp
  · intro h1 h2
    simp only [generate_extraction_plan, attempt1Plan, attempt2Plan, attempt2Messages] at h1 h2 ⊢
    rw [h1, h2]
    simp
  · intro h1 h2
    simp only [generate_extraction_plan, attempt1Plan, attempt2Plan, attempt2Messages] at h1 h2 ⊢
    rw [h1, h2]
    simp
  · intro oracle2 h1 h2
    simp only [attempt1Plan, attempt2Plan, attempt2Messages] at h1 h2
    simp only [generate_extraction_plan, h1, h2]

/-- The entries of a well-formed field dict. -/
def cexGoodFieldKv : List (Str × PyVal) :=
  [(("name").data, PyVal.str ("x").data),
   (("selector").data, PyVal.str ("a").data),
   (("type").data, PyVal.str ("text").data),
   (("fallback_selectors").data, PyVal.list [])]

/-- A well-formed single-field plan entry used to exercise the generator. -/
def cexGoodField : PyVal := PyVal.dict cexGoodFieldKv

/-- The entries of a plan that passes validation. -/
def cexGoodKvs : List (Str × PyVal) :=
  [(("item_container").data, PyVal.str ("div").data),
   (("fields").data, PyVal.list [cexGoodField])]

/-- A plan that passes validation. -/
def cexGoodPlan : PyVal := PyVal.dict cexGoodKvs

/-- Witness for C1: a constant oracle returning a valid plan yields that plan
with attempt count 1. -/
theorem C1_plan_generator_two_attempts_witness :
    generate_extraction_plan (fun _ => cexGoodPlan) [] [] [] [] =
      Except.ok ⟨cexGoodPlan, [], 1⟩ :=
  (C1_plan_generator_two_attempts (fun _ => cexGoodPlan) [] [] [] []).1 (by decide)

/-! ## Claim C8 -/

/-- C8 counterexample: on the prompt `"exclude shoes without socks"` both
exclude patterns match; the compiler emits keywords from both (`shoes` from
`exclude <phrase>` and `socks` from `without <phrase>`), not only from the
first matching pattern, whose contribution alone is `["shoes"]`. -/
theorem C8_counterexample :
    (parse_filters_from_prompt ("exclude shoes without socks").data).exclude_keywords
        = [("shoes").data, ("socks").data] ∧
    phraseKeywords ("exclude").data (norm ("exclude shoes without socks").data)
        = [("shoes").data] := by
  decide

/-- C8 amended: the exclude category is not first-match-wins: every matching
pattern contributes, so a keyword is an exclude keyword iff it comes from the
`exclude <phrase>` pattern or from the `without <phrase>` pattern. -/
theorem C8_exclude_patterns_both_contribute (prompt k : Str) :
    k ∈ (parse_filters_from_prompt prompt).exclude_keywords ↔
      (k ∈ phraseKeywords ("exclude").data (norm prompt) ∨
       k ∈ phraseKeywords ("without").data (norm prompt)) := by
  simp [parse_filters_from_prompt]

/-! ## Claim C4 -/

/-- C4: the numeric candidate patterns are evaluated strictly in the priority
order (a)–(f) with the loop stopping at the first match, so at most one
numeric filter is produced; and `"price above 10000"` compiles to the single
filter `price > 10000.0` via pattern (d) — pattern (a) does not fire (no
comparator follows `price`) and no `×1000` scaling applies. -/
theorem C4_numeric_pattern_priority :
    (∀ p : Str, (parse_filters_from_prompt p).numeric_filters.length ≤ 1) ∧
    (∀ (p : Str) r, scanOptB matchFieldOp Option.none (norm p) = some r →
      (parse_filters_from_prompt p).numeric_filters = [⟨r.1, r.2.1, some (qOfNumStr r.2.2)⟩]) ∧
    (∀ (p : Str) r, scanOptB matchFieldOp Option.none (norm p) = Option.none →
      scanOptB (matchDirNumK aboveWords) Option.none (norm p) = some r →
      (parse_filters_from_prompt p).numeric_filters = [dirFilter r.1 ((digitsVal r.2 * 1000 : Nat) : ℚ)]) ∧
    (∀ (p : Str) r, scanOptB matchFieldOp Option.none (norm p) = Option.none →
      scanOptB (matchDirNumK aboveWords) Option.none (norm p) = Option.none →
      scanOptB (matchDirNumK belowWords) Option.none (norm p) = some r →
      (parse_filters_from_prompt p).numeric_filters = [dirFilter r.1 ((digitsVal r.2 * 1000 : Nat) : ℚ)]) ∧
    (∀ (p : Str) r, scanOptB matchFieldOp Option.none (norm p) = Option.none →
      scanOptB (matchDirNumK aboveWords) Option.none (norm p) = Option.none →
      scanOptB (matchDirNumK belowWords) Option.none (norm p) = Option.none →
      scanOptB (matchDirNum3 aboveWords) Option.none (norm p) = some r →
      (parse_filters_from_prompt p).numeric_filters = [dirFilter r.1 (digitsVal r.2 : ℚ)]) ∧
    (∀ (p : Str) r, scanOptB matchFieldOp Option.none (norm p) = Option.none →
      scanOptB (matchDirNumK aboveWords) Option.none (norm p) = Option.none →
      scanOptB (matchDirNumK belowWords) Option.none (norm p) = Option.none →
      scanOptB (matchDirNum3 aboveWords) Option.none (norm p) = Option.none →
      scanOptB (matchDirNum3 belowWords) Option.none (norm p) = some r →
      (parse_filters_from_prompt p).numeric_filters = [dirFilter r.1 (digitsVal r.2 : ℚ)]) ∧
    (∀ (p : Str) r, scanOptB matchFieldOp Option.none (norm p) = Option.none →
      scanOptB (matchDirNumK aboveWords) Option.none (norm p) = Option.none →
      scanOptB (matchDirNumK belowWords) Option.none (norm p) = Option.none →
      scanOptB (matchDirNum3 aboveWords) Option.none (norm p) = Option.none →
      scanOptB (matchDirNum3 belowWords) Option.none (norm p) = Option.none →
      scanOpt matchOpNum3 (norm p) = some r →
      (parse_filters_from_prompt p).numeric_filters =
        (if (([">", ">=", "<", "<=", "="]).map (·.data)).contains r.1 then
          [⟨("price").data, r.1, some (qOfNumStr r.2)⟩] else [])) ∧
    ((parse_filters_from_prompt ("price above 10000").data).numeric_filters =
      [⟨("price").data, (">").data, some 10000⟩]) := by
  refine ⟨?_, ?_, ?_, ?_, ?_, ?_, ?_, by decide⟩
  · intro p
    simp only [parse_filters_from_prompt, numericFiltersOf]
    rcases scanOptB matchFieldOp Option.none (norm p) with _ | r
    swap
    · simp
    rcases scanOptB (matchDirNumK aboveWords) Option.none (norm p) with _ | r
    swap
    · simp
    rcases scanOptB (matchDirNumK belowWords) Option.none (norm p) with _ | r
    swap
    · simp
    rcases scanOptB (matchDirNum3 aboveWords) Option.none (norm p) with _ | r
    swap
    · simp
    rcases scanOptB (matchDirNum3 belowWords) Option.none (norm p) with _ | r
    swap
    · simp
    rcases scanOpt matchOpNum3 (norm p) with _ | r
    swap
    · dsimp only
      split <;> simp
    simp
  · intro p r h1
    simp only [parse_filters_from_prompt, numericFiltersOf, h1]
  · intro p r h1 h2
    simp only [parse_filters_from_prompt, numericFiltersOf, h1, h2]
  · intro p r h1 h2 h3
    simp only [parse_filters_from_prompt, numericFiltersOf, h1, h2, h3]
  · intro p r h1 h2 h3 h4
    simp only [parse_filters_from_prompt, numericFiltersOf, h1, h2, h3, h4]
  · intro p r h1 h2 h3 h4 h5
    simp only [parse_filters_from_prompt, numericFiltersOf, h1, h2, h3, h4, h5]
  · intro p r h1 h2 h3 h4 h5 h6
    simp only [parse_filters_from_prompt, numericFiltersOf, h1, h2, h3, h4, h5, h6]

/-- Witness for C4: on `"price > 500"` pattern (a) matches and yields the
field-and-operator filter. -/
theorem C4_numeric_pattern_priority_witness :
    (parse_filters_from_prompt ("price > 500").data).numeric_filters =
      [⟨("price").data, (">").data, some (qOfNumStr ("500").data)⟩] :=
  C4_numeric_pattern_priority.2.1 (("price > 500").data)
    ((("price").data, ((">").data, ("500").data))) (by decide)

/-! ## Claim C5 -/

/-- C5: the filter applier resolves a row's comparison value by the first row
key containing the hint as a case-insensitive substring (its value is used
even when unparsable), else by the synonym groups
(`price ↦ {price, mrp, amount, cost}`, `rating ↦ {rating, score}`, else the
hint itself) matched by substring; rows with no resolvable key or an
unparsable resolved value are dropped; and on the two example rows the
`price > 10000` filter keeps only row A. -/
theorem C5_numeric_filter_application :
    (∀ (row : List (Str × Val)) (hint : Str) kv,
      row.find? (fun kv => containsSub (norm hint) (norm kv.1)) = some kv →
      get_numeric_value row hint = to_float kv.2) ∧
    (∀ (row : List (Str × Val)) (hint : Str) kv,
      row.find? (fun kv => containsSub (norm hint) (norm kv.1)) = Option.none →
      row.find? (fun kv => (mappingGet (norm hint)).any (fun c => containsSub c (norm kv.1))) = some kv →
      get_numeric_value row hint = to_float kv.2) ∧
    (∀ (row : List (Str × Val)) (hint : Str),
      row.find? (fun kv => containsSub (norm hint) (norm kv.1)) = Option.none →
      row.find? (fun kv => (mappingGet (norm hint)).any (fun c => containsSub c (norm kv.1))) = Option.none →
      get_numeric_value row hint = Option.none) ∧
    (mappingGet ("price").data = (["price", "mrp", "amount", "cost"]).map (·.data)) ∧
    (mappingGet ("rating").data = (["rating", "score"]).map (·.data)) ∧
    (∀ hint : Str, hint ≠ ("price").data → hint ≠ ("rating").data → mappingGet hint = [hint]) ∧
    (∀ (rows : List (List (Str × Val))) (hint op : Str) (target : ℚ),
      apply_filter_spec rows ⟨[], [], [⟨hint, op, some target⟩]⟩ =
        rows.filter (fun r =>
          match get_numeric_value r hint with
          | Option.none => false
          | some v => passes_numeric v op target)) ∧
    (apply_filter_spec
        [[(("name").data, Val.str ("A").data), (("price").data, Val.str (("₹12,000").data))],
         [(("name").data, Val.str ("B").data), (("price").data, Val.str (("₹8,000").data))]]
        ⟨[], [], [⟨("price").data, (">").data, some 10000⟩]⟩ =
      [[(("name").data, Val.str ("A").data), (("price").data, Val.str (("₹12,000").data))]]) := by
  refine ⟨?_, ?_, ?_, by decide, by decide, ?_, ?_, by decide⟩
  · intro row hint kv h
    simp only [get_numeric_value, h]
  · intro row hint kv h1 h2
    simp only [get_numeric_value, h1, h2]
  · intro row hint h1 h2
    simp only [get_numeric_value, h1, h2]
  · intro hint h1 h2
    simp only [mappingGet, if_neg h1, if_neg h2]
  · intro rows hint op target
    rfl

/-- Witness for C5: a key literally containing the hint resolves via the
first rule. -/
theorem C5_numeric_filter_application_witness :
    get_numeric_value [(("price").data, Val.num 5)] (("price").data) = to_float (Val.num 5) :=
  C5_numeric_filter_application.1 [(("price").data, Val.num 5)] (("price").data)
    ((("price").data, Val.num 5)) (by decide)

/-! ## Claim C2 -/

lemma trimStr_eq_nil_iff (s : Str) : trimStr s = [] ↔ ∀ c ∈ s, c.isWhitespace := by
  unfold trimStr
  constructor
  · intro h c hc
    rw [List.reverse_eq_nil_iff, List.dropWhile_eq_nil_iff] at h
    rcases List.mem_append.mp
        (by rw [List.takeWhile_append_dropWhile Char.isWhitespace s]; exact hc) with h1 | h2
    · exact List.mem_takeWhile_imp h1
    · exact h c (List.mem_reverse.mpr h2)
  · intro h
    have h1 : s.dropWhile Char.isWhitespace = [] :=
      List.dropWhile_eq_nil_iff.mpr (fun c hc => h c hc)
    simp [h1]

lemma containsSub_lowerStr {pat s : Str} (hfix : lowerStr pat = pat)
    (h : containsSub pat s = true) : containsSub pat (lowerStr s) = true := by
  rw [containsSub_infix_iff] at h ⊢
  have h2 := h.map Char.toLower
  rwa [show pat.map Char.toLower = pat from hfix] at h2

/-- The reason string the check produces for a `:has(` selector. -/
def hasFeatureMsg : Str :=
  ("Selector contains unsupported/forbidden feature: ").data ++ (":has(").data

/-- The `item_container` validation error produced for a `:has(` selector. -/
def icInvalidHasErr : Str := ("item_container invalid: ").data ++ hasFeatureMsg

/-- The rejection condition exactly as the claim words it: literal containment
of a forbidden sub-pattern, a line break, or length over 200. -/
def rejectsPerClaimLiteral (sel : Str) : Bool :=
  forbiddenFeatures.any (fun f => containsSub f sel) ||
    sel.contains '\n' || sel.contains '\r' || decide (200 < sel.length)

/-- C2 counterexample: the source lowercases the selector before testing the
forbidden patterns, so the selector `":HAS("` is rejected although it does
not literally contain any forbidden sub-pattern, contains no line break, and
is 5 characters long — the claimed iff fails on it. -/
theorem C2_counterexample :
    (contains_unsupported_selector_features ((":HAS(").data)).isSome = true ∧
    rejectsPerClaimLiteral ((":HAS(").data) = false := by decide

/-- C2 amended: the selector-safety check rejects a selector iff its
lowercased form contains one of the forbidden sub-patterns, or the selector
contains a line break, or it exceeds 200 characters (in particular literal
containment still implies rejection); and validating any plan whose
`item_container` is a string containing `:has(` yields `ok = false` with an
error string citing that forbidden feature. -/
theorem C2_selector_safety :
    (∀ sel : Str, (contains_unsupported_selector_features sel).isSome =
      (forbiddenFeatures.any (fun f => containsSub f (lowerStr sel)) ||
        sel.contains '\n' || sel.contains '\r' || decide (sel.length > 200))) ∧
    (∀ (kvs : List (Str × PyVal)) (s : Str),
      dget kvs ("item_container").data = PyVal.str s →
      containsSub ((":has(").data) s = true →
      (validate_plan (PyVal.dict kvs)).1 = false ∧
      ∃ e ∈ (validate_plan (PyVal.dict kvs)).2, containsSub ((":has(").data) e = true) := by
  constructor
  · intro sel
    simp only [contains_unsupported_selector_features]
    cases hf : List.find? (fun f => containsSub f (lowerStr sel)) forbiddenFeatures with
    | some f =>
      have hex : ∃ x ∈ forbiddenFeatures, (fun f => containsSub f (lowerStr sel)) x = true :=
        List.find?_isSome.mp (by rw [hf]; rfl)
      have hany : forbiddenFeatures.any (fun f => containsSub f (lowerStr sel)) = true :=
        List.any_eq_true.mpr hex
      simp [hany]
    | none =>
      have hany : forbiddenFeatures.any (fun f => containsSub f (lowerStr sel)) = false := by
        rw [List.any_eq_false]
        intro f hmem
        simpa using List.find?_eq_none.mp hf f hmem
      simp only [hany, Bool.false_or]
      split
      · simp_all
      · split <;> simp_all
  · intro kvs s hic hhas
    have hlow : containsSub ((":has(").data) (lowerStr s) = true :=
      containsSub_lowerStr (by decide) hhas
    have htrimne : trimStr s ≠ [] := by
      rw [ne_eq, trimStr_eq_nil_iff]
      intro hall
      have hmem : ':' ∈ s := ((containsSub_infix_iff _ _).mp hhas).subset (by simp)
      have := hall ':' hmem
      simp [Char.isWhitespace] at this
    have htrimb : (trimStr s).isEmpty = false := by
      cases h : trimStr s
      · exact absurd h htrimne
      · rfl
    have hfind : forbiddenFeatures.find? (fun f => containsSub f (lowerStr s)) =
        some ((":has(").data) := by
      have hlist : forbiddenFeatures = ((":has(").data) ::
          ([":contains(", ":-soup-contains(", ":matches(", ":nth-match("].map (·.data)) := by
        decide
      rw [hlist]
      exact List.find?_cons_of_pos _ hlow
    have hbad : contains_unsupported_selector_features s = some hasFeatureMsg := by
      simp only [contains_unsupported_selector_features, hfind, hasFeatureMsg]
    simp only [validate_plan, hic, htrimb, Bool.false_eq_true, if_false, hbad]
    cases hfd : dget kvs ("fields").data with
    | list fs =>
      by_cases he : fs.isEmpty
      · simp only [he, if_true]
        exact ⟨by simp, icInvalidHasErr, by simp [icInvalidHasErr], by decide⟩
      · simp only [he, Bool.false_eq_true, if_false]
        refine ⟨by simp [icInvalidHasErr], icInvalidHasErr, by simp [icInvalidHasErr], by decide⟩
    | none => exact ⟨by simp, icInvalidHasErr, by simp [icInvalidHasErr], by decide⟩
    | str s2 => exact ⟨by simp, icInvalidHasErr, by simp [icInvalidHasErr], by decide⟩
    | num q => exact ⟨by simp, icInvalidHasErr, by simp [icInvalidHasErr], by decide⟩
    | bool b => exact ⟨by simp, icInvalidHasErr, by simp [icInvalidHasErr], by decide⟩
    | dict d => exact ⟨by simp, icInvalidHasErr, by simp [icInvalidHasErr], by decide⟩

/-- Witness for C2: a plan whose `item_container` is `p:has(a)` is rejected
with an error citing `:has(`. -/
theorem C2_selector_safety_witness :
    (validate_plan (PyVal.dict [(("item_container").data, PyVal.str ("p:has(a)").data)])).1 = false ∧
    ∃ e ∈ (validate_plan (PyVal.dict [(("item_container").data, PyVal.str ("p:has(a)").data)])).2,
      containsSub ((":has(").data) e = true :=
  C2_selector_safety.2 [(("item_container").data, PyVal.str ("p:has(a)").data)]
    (("p:has(a)").data) rfl (by decide)

/-! ## Claim C9 -/

/-- A field dict named `x` selecting `a`. -/
def dupFieldA : List (Str × PyVal) :=
  [(("name").data, PyVal.str ("x").data), (("selector").data, PyVal.str ("a").data),
   (("type").data, PyVal.str ("text").data), (("fallback_selectors").data, PyVal.list [])]

/-- A second field dict also named `x`, selecting `b`. -/
def dupFieldB : List (Str × PyVal) :=
  [(("name").data, PyVal.str ("x").data), (("selector").data, PyVal.str ("b").data),
   (("type").data, PyVal.str ("text").data), (("fallback_selectors").data, PyVal.list [])]

/-- The dict entries of a plan whose fields at the two distinct positions 0
and 1 share the name `x`. -/
def dupNameKvs : List (Str × PyVal) :=
  [(("item_container").data, PyVal.str ("div").data),
   (("fields").data, PyVal.list [PyVal.dict dupFieldA, PyVal.dict dupFieldB])]

/-- C9 counterexample: the validator accepts (`ok = true`, no errors) a plan
whose fields at positions 0 and 1 both have name `x`: `_validate_plan` never
compares names across fields, so the claimed uniqueness invariant fails. -/
theorem C9_counterexample :
    validate_plan (PyVal.dict dupNameKvs) = (true, []) ∧
    dget dupNameKvs ("fields").data = PyVal.list [PyVal.dict dupFieldA, PyVal.dict dupFieldB] ∧
    dget dupFieldA ("name").data = PyVal.str ("x").data ∧
    dget dupFieldB ("name").data = PyVal.str ("x").data :=
  ⟨by decide, rfl, rfl, rfl⟩

lemma foldr_append_eq_nil {α β : Type} (g : α → List β) (l : List α)
    (h : l.foldr (fun a acc => g a ++ acc) [] = []) : ∀ a ∈ l, g a = [] := by
  induction l with
  | nil => simp
  | cons x xs ih =>
    simp only [List.foldr_cons, List.append_eq_nil] at h
    intro a ha
    rcases List.mem_cons.mp ha with rfl | ha2
    · exact h.1
    · exact ih h.2 a ha2

lemma mem_enumFrom_of_mem {α : Type} {a : α} {l : List α} (h : a ∈ l) :
    ∀ n : Nat, ∃ i, (i, a) ∈ l.enumFrom n := by
  induction l with
  | nil => cases h
  | cons x xs ih =>
    intro n
    rcases List.mem_cons.mp h with rfl | h2
    · exact ⟨n, by simp [List.enumFrom]⟩
    · obtain ⟨i, hi⟩ := ih h2 (n + 1)
      exact ⟨i, by simp [List.enumFrom, hi]⟩

/-- A field entry that is a dict whose `name` is a non-blank string. -/
def fieldNameNonBlank : PyVal → Bool
  | .dict fkv =>
    (match dget fkv ("name").data with
     | .str s => !(trimStr s).isEmpty
     | _ => false)
  | _ => false

/-- C9 amended: every plan the validator accepts has every field entry a dict
with a non-blank string name, but field-name uniqueness is not enforced (the
counterexample exhibits an accepted plan with two equally named fields). -/
theorem C9_accepted_field_names_nonblank (kvs : List (Str × PyVal)) (fs : List PyVal)
    (hf : dget kvs ("fields").data = PyVal.list fs)
    (hok : (validate_plan (PyVal.dict kvs)).1 = true) :
    ∀ f ∈ fs, fieldNameNonBlank f = true := by
  simp only [validate_plan, hf] at hok
  by_cases he : fs.isEmpty
  · simp only [he, if_true] at hok
    cases hok
  · simp only [he, Bool.false_eq_true, if_false] at hok
    have herrs : (fs.enum).foldr (fun ix acc => validateField ix.1 ix.2 ++ acc) [] = [] := by
      rcases List.append_eq_nil.mp (List.isEmpty_iff.mp hok) with ⟨_, h2⟩
      exact h2
    intro f hfmem
    obtain ⟨i, hi⟩ := mem_enumFrom_of_mem hfmem 0
    have hvf : validateField i f = [] := by
      have := foldr_append_eq_nil (fun ix : Nat × PyVal => validateField ix.1 ix.2) fs.enum herrs (i, f)
      exact this hi
    cases f with
    | dict fkv =>
      simp only [validateField] at hvf
      have hname : (match dget fkv ("name").data with
          | .str s => if (trimStr s).isEmpty then [fieldErr i (".name must be a non-empty string.").data] else []
          | _ => [fieldErr i (".name must be a non-empty string.").data]) = [] := by
        rcases List.append_eq_nil.mp hvf with ⟨h1, _⟩
        rcases List.append_eq_nil.mp h1 with ⟨h2, _⟩
        rcases List.append_eq_nil.mp h2 with ⟨h3, _⟩
        exact h3
      cases hn : dget fkv ("name").data with
      | str s =>
        simp only [hn] at hname
        by_cases ht : (trimStr s).isEmpty
        · simp [ht] at hname
        · simp [fieldNameNonBlank, hn, ht]
      | none => simp [hn] at hname
      | num q => simp [hn] at hname
      | bool b => simp [hn] at hname
      | list l => simp [hn] at hname
      | dict d => simp [hn] at hname
    | none => simp [validateField] at hvf
    | str s => simp [validateField] at hvf
    | num q => simp [validateField] at hvf
    | bool b => simp [validateField] at hvf
    | list l => simp [validateField] at hvf

/-- Witness for C9: the accepted duplicate-name plan instantiates the amended
theorem at its first field. -/
theorem C9_accepted_field_names_nonblank_witness :
    fieldNameNonBlank (PyVal.dict dupFieldA) = true :=
  C9_accepted_field_names_nonblank dupNameKvs [PyVal.dict dupFieldA, PyVal.dict dupFieldB]
    rfl (by decide) (PyVal.dict dupFieldA) (by simp)

/-! ## Claim C3 -/

/-- The stripped names of the well-named dict fields of a plan, in order;
these are exactly the keys the engine writes into a row. -/
def validFieldNames (fs : List PyVal) : List Str :=
  fs.filterMap (fun f =>
    match f with
    | .dict fkv =>
      (match dget fkv ("name").data with
       | .str ns => if (trimStr ns).isEmpty then Option.none else some (trimStr ns)
       | _ => Option.none)
    | _ => Option.none)

lemma lookup_map_overwrite_self (k : Str) (v : Val) (row : List (Str × Val))
    (h : row.any (fun kv => kv.1 == k) = true) :
    List.lookup k (row.map (fun kv => if kv.1 == k then (k, v) else kv)) = some v := by
  induction row with
  | nil => simp at h
  | cons kv rest ih =>
    rw [List.map_cons]
    by_cases hk : (kv.1 == k) = true
    · rw [if_pos hk]
      simp [List.lookup]
    · rw [if_neg hk]
      have hne : (k == kv.1) = false := by
        rw [beq_eq_false_iff_ne]
        intro he
        exact hk (by simp [he.symm])
      simp only [List.lookup, hne]
      apply ih
      rcases List.any_eq_true.mp h with ⟨x, hx, hpx⟩
      rcases List.mem_cons.mp hx with rfl | hx2
      · exact absurd hpx hk
      · exact List.any_eq_true.mpr ⟨x, hx2, hpx⟩

lemma lookup_map_overwrite_ne (k k2 : Str) (v : Val) (row : List (Str × Val))
    (h2 : (k2 == k) = false) :
    List.lookup k2 (row.map (fun kv => if kv.1 == k then (k, v) else kv)) =
      List.lookup k2 row := by
  induction row with
  | nil => rfl
  | cons kv rest ih =>
    rw [List.map_cons]
    by_cases hk : (kv.1 == k) = true
    · rw [if_pos hk]
      have hx : (k2 == kv.1) = false := by rw [beq_iff_eq.mp hk]; exact h2
      simp only [List.lookup, h2, hx]
      exact ih
    · rw [if_neg hk]
      simp only [List.lookup]
      cases hk2 : (k2 == kv.1)
      · simp only []
        exact ih
      · simp only []
  
lemma lookup_append_single_self (k : Str) (v : Val) (row : List (Str × Val))
    (h : row.any (fun kv => kv.1 == k) = false) :
    List.lookup k (row ++ [(k, v)]) = some v := by
  induction row with
  | nil => simp [List.lookup]
  | cons kv rest ih =>
    rw [List.cons_append]
    have hne : (kv.1 == k) = false := by
      have := List.any_eq_false.mp h kv (List.mem_cons_self _ _)
      simpa using this
    have hne2 : (k == kv.1) = false := by
      rw [beq_eq_false_iff_ne] at hne ⊢
      exact fun he => hne he.symm
    simp only [List.lookup, hne2]
    apply ih
    rw [List.any_eq_false] at h ⊢
    intro x hx
    exact h x (List.mem_cons_of_mem _ hx)

lemma lookup_append_single_ne (k k2 : Str) (v : Val) (row : List (Str × Val))
    (h2 : (k2 == k) = false) :
    List.lookup k2 (row ++ [(k, v)]) = List.lookup k2 row := by
  induction row with
  | nil => simp [List.lookup, h2]
  | cons kv rest ih =>
    rw [List.cons_append]
    simp only [List.lookup]
    cases hk2 : (k2 == kv.1)
    · simp only []
      exact ih
    · simp only []

lemma dinsert_lookup_self (row : List (Str × Val)) (k : Str) (v : Val) :
    (dinsert row k v).lookup k = some v := by
  unfold dinsert
  by_cases h : row.any (fun kv => kv.1 == k) = true
  · rw [if_pos h]
    exact lookup_map_overwrite_self k v row h
  · rw [if_neg h]
    have hf : row.any (fun kv => kv.1 == k) = false := by
      cases hx : row.any (fun kv => kv.1 == k)
      · rfl
      · exact absurd hx h
    exact lookup_append_single_self k v row hf

lemma dinsert_lookup_ne (row : List (Str × Val)) (k k2 : Str) (v : Val) (h : k2 ≠ k) :
    (dinsert row k v).lookup k2 = row.lookup k2 := by
  have h2 : (k2 == k) = false := beq_eq_false_iff_ne.mpr h
  unfold dinsert
  by_cases hany : row.any (fun kv => kv.1 == k) = true
  · rw [if_pos hany]
    exact lookup_map_overwrite_ne k k2 v row h2
  · rw [if_neg hany]
    exact lookup_append_single_ne k k2 v row h2

/-- The entry name the validator and the engine agree on for a field
candidate, when well formed. -/
def fieldNameKey (f : PyVal) : Option Str :=
  match f with
  | PyVal.dict fkv =>
    (match dget fkv ("name").data with
     | PyVal.str ns => if (trimStr ns).isEmpty then Option.none else some (trimStr ns)
     | _ => Option.none)
  | _ => Option.none

lemma validFieldNames_cons (f : PyVal) (rest : List PyVal) :
    validFieldNames (f :: rest) = (fieldNameKey f).toList ++ validFieldNames rest := by
  unfold validFieldNames fieldNameKey
  rw [List.filterMap_cons]
  cases (match f with
     | PyVal.dict fkv =>
       (match dget fkv ("name").data with
        | PyVal.str ns => if (trimStr ns).isEmpty then Option.none else some (trimStr ns)
        | _ => Option.none)
     | _ => Option.none : Option Str) <;> simp

lemma lookup_foldl_rowStep_not_mem (doc : HtmlDoc) (item : Nat) (fs : List PyVal) (k : Str)
    (h : k ∉ validFieldNames fs) :
    ∀ row, (fs.foldl (rowStep doc item) row).lookup k = row.lookup k := by
  induction fs with
  | nil => intro row; rfl
  | cons f rest ih =>
    intro row
    rw [List.foldl_cons]
    have hrest : k ∉ validFieldNames rest := fun hx =>
      h (by rw [validFieldNames_cons]; exact List.mem_append_right _ hx)
    rw [ih hrest]
    cases f with
    | dict fkv =>
      cases hn : dget fkv ("name").data with
      | str ns =>
        by_cases hb : (trimStr ns).isEmpty
        · simp [rowStep, hn, hb]
        · have hkne : k ≠ trimStr ns := by
            intro rfl2
            apply h
            rw [validFieldNames_cons]
            have hkey : fieldNameKey (PyVal.dict fkv) = some (trimStr ns) := by
              simp [fieldNameKey, hn, hb]
            rw [hkey]
            simp [rfl2]
          simp only [rowStep, hn, hb, Bool.false_eq_true, if_false]
          exact dinsert_lookup_ne _ _ _ _ hkne
      | none => simp [rowStep, hn]
      | num q => simp [rowStep, hn]
      | bool b => simp [rowStep, hn]
      | list l => simp [rowStep, hn]
      | dict d => simp [rowStep, hn]
    | none => simp [rowStep]
    | str s => simp [rowStep]
    | num q => simp [rowStep]
    | bool b => simp [rowStep]
    | list l => simp [rowStep]

lemma lookup_foldl_rowStep_target (doc : HtmlDoc) (item : Nat) (fs : List PyVal)
    (fkv : List (Str × PyVal)) (ns : Str)
    (hnd : (validFieldNames fs).Nodup)
    (hmem : PyVal.dict fkv ∈ fs)
    (hn : dget fkv ("name").data = PyVal.str ns)
    (hb : ¬(trimStr ns).isEmpty = true) :
    ∀ row, (fs.foldl (rowStep doc item) row).lookup (trimStr ns) =
      some (fieldValue doc item fkv) := by
  induction fs with
  | nil => cases hmem
  | cons f rest ih =>
    intro row
    rw [List.foldl_cons]
    rcases List.mem_cons.mp hmem with rfl | hmem2
    · have hstep : rowStep doc item row (PyVal.dict fkv) =
          dinsert row (trimStr ns) (fieldValue doc item fkv) := by
        simp [rowStep, hn, hb]
      rw [hstep]
      have hnotin : trimStr ns ∉ validFieldNames rest := by
        rw [validFieldNames_cons] at hnd
        simp only [fieldNameKey, hn, hb, Bool.false_eq_true, if_false, Option.toList_some,
          List.cons_append, List.nil_append] at hnd
        exact (List.nodup_cons.mp hnd).1
      rw [lookup_foldl_rowStep_not_mem doc item rest (trimStr ns) hnotin]
      exact dinsert_lookup_self _ _ _
    · have hnd2 : (validFieldNames rest).Nodup := by
        rw [validFieldNames_cons] at hnd
        exact hnd.sublist (List.sublist_append_right _ _)
      exact ih hnd2 hmem2 _

lemma build_row_lookup_eq (doc : HtmlDoc) (item : Nat) (fs : List PyVal)
    (fkv : List (Str × PyVal)) (ns : Str)
    (hnd : (validFieldNames fs).Nodup)
    (hmem : PyVal.dict fkv ∈ fs)
    (hn : dget fkv ("name").data = PyVal.str ns)
    (hb : ¬(trimStr ns).isEmpty = true) :
    (build_row doc fs item).lookup (trimStr ns) = some (fieldValue doc item fkv) :=
  lookup_foldl_rowStep_target doc item fs fkv ns hnd hmem hn hb []

/-- C3: for every document capability and every plan dict with a non-empty
`item_container` string and a non-empty list of field dicts: extraction
succeeds; `matched_item_count` is the number of elements matching
`item_container` in document order; the rows are exactly the per-item row
dicts filtered by the retention test (so at most one row per matched item and
a row survives iff one of its values is non-null and non-blank after
trimming, a dropped row not being an error); and a well-named field whose
selector attempt list matches nothing inside the item is assigned null. -/
theorem C3_extraction_engine (doc : HtmlDoc) (kvs : List (Str × PyVal)) (s : Str)
    (fs : List PyVal)
    (hic : dget kvs ("item_container").data = PyVal.str s) (hs : s ≠ [])
    (hf : dget kvs ("fields").data = PyVal.list fs) (hfs : fs ≠ [])
    (hdicts : ∀ f ∈ fs, f.isDict = true) :
    extract_rows_from_plan doc (PyVal.dict kvs) =
      Except.ok ⟨((doc.selectAll s).map (build_row doc fs)).filter rowKeep,
        (doc.selectAll s).length⟩ ∧
    (((doc.selectAll s).map (build_row doc fs)).filter rowKeep).length ≤
      (doc.selectAll s).length ∧
    (∀ t, extract_by_type doc Option.none t = Val.none) ∧
    (∀ (item : Nat) (fkv : List (Str × PyVal)) (ns : Str),
      (validFieldNames fs).Nodup →
      PyVal.dict fkv ∈ fs →
      dget fkv ("name").data = PyVal.str ns →
      ¬(trimStr ns).isEmpty = true →
      (build_row doc fs item).lookup (trimStr ns) = some (fieldValue doc item fkv)) ∧
    (∀ (item : Nat) (fkv : List (Str × PyVal)) (ns : Str),
      (validFieldNames fs).Nodup →
      PyVal.dict fkv ∈ fs →
      dget fkv ("name").data = PyVal.str ns →
      ¬(trimStr ns).isEmpty = true →
      first_match doc item (selectorsOf fkv) = Option.none →
      (build_row doc fs item).lookup (trimStr ns) = some Val.none) := by
  refine ⟨?_, ?_, fun t => rfl, ?_, ?_⟩
  · have hse : s.isEmpty = false := by
      cases s
      · exact absurd rfl hs
      · rfl
    have hfse : fs.isEmpty = false := by
      cases fs
      · exact absurd rfl hfs
      · rfl
    have hnd : (fs.any (fun f => !f.isDict)) = false := by
      rw [List.any_eq_false]
      intro f hf2
      rw [hdicts f hf2]
      simp
    simp [extract_rows_from_plan, hic, hf, hse, hfse, hnd]
  · exact le_trans (List.length_filter_le _ _) (le_of_eq (List.length_map _ _))
  · intro item fkv ns hnd hmem hn hb
    exact build_row_lookup_eq doc item fs fkv ns hnd hmem hn hb
  · intro item fkv ns hnd hmem hn hb hfm
    rw [build_row_lookup_eq doc item fs fkv ns hnd hmem hn hb]
    simp [fieldValue, hfm, extract_by_type]

/-- A document capability with three matching items and no inner matches. -/
def cexDoc : HtmlDoc :=
  ⟨fun _ => [0, 1, 2], fun _ _ => Option.none, fun _ => [], fun _ => []⟩

/-- Witness for C3: on the three-item document, the single well-named field
of the good plan is looked up to its computed value. -/
theorem C3_extraction_engine_witness :
    (build_row cexDoc [cexGoodField] 0).lookup (trimStr ("x").data) =
      some (fieldValue cexDoc 0 cexGoodFieldKv) :=
  (C3_extraction_engine cexDoc cexGoodKvs (("div").data) [cexGoodField]
      rfl (by decide) rfl (List.cons_ne_nil _ _)
      (fun f hf2 => by
        rcases List.mem_singleton.mp hf2 with rfl
        rfl)).2.2.2.1
    0 cexGoodFieldKv (("x").data) (by decide) (List.mem_cons_self _ _) rfl (by decide)

/-! ## Claim C6 -/

/-- C6 counterexample: on the single row `{a: None}` the normalizer drops
every row but keeps the column `a`; re-applying it to the (empty) rows of its
own output short-circuits to the column-less empty dataframe, so the table is
not the same. -/
theorem C6_counterexample :
    postprocess_rows [[(("a").data, Val.none)]] = (⟨[("a").data], []⟩, 0) ∧
    postprocess_rows (tableToRows (postprocess_rows [[(("a").data, Val.none)]]).1) =
      (⟨[], []⟩, 0) ∧
    (⟨[], []⟩ : Table) ≠ ⟨[("a").data], []⟩ := by
  refine ⟨by decide, by decide, by decide⟩

lemma dropWhile_head_false (p : Char → Bool) :
    ∀ (l : Str) (c : Char) (t : Str), l.dropWhile p = c :: t → p c = false := by
  intro l
  induction l with
  | nil => intro c t h; cases h
  | cons a rest ih =>
    intro c t h
    rw [List.dropWhile_cons] at h
    split at h
    · exact ih c t h
    · injection h with h1 h2
      subst h1
      rename_i hpa
      cases hp : p a
      · rfl
      · exact absurd hp hpa

lemma dropWhile_dropWhile (p : Char → Bool) (l : Str) :
    (l.dropWhile p).dropWhile p = l.dropWhile p := by
  cases h : l.dropWhile p with
  | nil => rfl
  | cons c t =>
    rw [List.dropWhile_cons, dropWhile_head_false p l c t h]
    simp

lemma rdropWhile_rdropWhile (p : Char → Bool) (l : Str) :
    List.rdropWhile p (List.rdropWhile p l) = List.rdropWhile p l := by
  simp only [List.rdropWhile, List.reverse_reverse]
  rw [dropWhile_dropWhile]

lemma trimStr_def2 (s : Str) :
    trimStr s = List.rdropWhile Char.isWhitespace (s.dropWhile Char.isWhitespace) := rfl

lemma trimStr_infix_self (s : Str) : trimStr s <:+: s := by
  rw [trimStr_def2]
  exact List.infix_iff_prefix_suffix.mpr
    ⟨s.dropWhile Char.isWhitespace, List.rdropWhile_prefix _ _, List.dropWhile_suffix _⟩

lemma trimStr_idem (s : Str) : trimStr (trimStr s) = trimStr s := by
  rw [trimStr_def2, trimStr_def2]
  have h1 : (List.rdropWhile Char.isWhitespace (s.dropWhile Char.isWhitespace)).dropWhile
      Char.isWhitespace = List.rdropWhile Char.isWhitespace (s.dropWhile Char.isWhitespace) := by
    cases h : List.rdropWhile Char.isWhitespace (s.dropWhile Char.isWhitespace) with
    | nil => rfl
    | cons c t =>
      have hpre := List.rdropWhile_prefix Char.isWhitespace (s.dropWhile Char.isWhitespace)
      rw [h] at hpre
      obtain ⟨u, hu⟩ := hpre
      have hc : Char.isWhitespace c = false :=
        dropWhile_head_false _ s c (t ++ u) (by rw [← hu]; simp)
      rw [List.dropWhile_cons, hc]
      simp
  rw [h1, rdropWhile_rdropWhile]

lemma trimStr_nonws_exists (s : Str) (h : trimStr s ≠ []) :
    ∃ c ∈ trimStr s, c.isWhitespace = false := by
  by_contra hall
  push_neg at hall
  apply h
  rw [← trimStr_idem s, trimStr_eq_nil_iff]
  intro c hc
  have h2 := hall c hc
  cases hx : c.isWhitespace
  · exact absurd hx h2
  · rfl

lemma mem_collapseAux_of_not_ws {c : Char} (hc : c.isWhitespace = false) :
    ∀ (l : Str) (b : Bool), c ∈ l → c ∈ collapseAux b l := by
  intro l
  induction l with
  | nil => intro b h; cases h
  | cons a rest ih =>
    intro b h
    unfold collapseAux
    by_cases ha : a.isWhitespace = true
    · rw [if_pos ha]
      rcases List.mem_cons.mp h with rfl | h2
      · rw [hc] at ha; cases ha
      · exact List.mem_append_right _ (ih true h2)
    · rw [if_neg ha]
      rcases List.mem_cons.mp h with rfl | h2
      · exact List.mem_cons_self _ _
      · exact List.mem_cons_of_mem _ (ih false h2)

/-- Adjacent characters of a whitespace-normalized string are never both
whitespace. -/
def wsAdj (a b : Char) : Prop := ¬(a.isWhitespace = true ∧ b.isWhitespace = true)

/-- A string is whitespace-normal when its whitespace characters are single
spaces with no two adjacent: exactly the invariant `collapseWs` guarantees. -/
def wsOk (l : Str) : Prop :=
  (∀ c ∈ l, c.isWhitespace = true → c = ' ') ∧ List.Chain' wsAdj l

lemma collapseAux_true_head (l : Str) :
    ∀ c t, collapseAux true l = c :: t → c.isWhitespace = false := by
  induction l with
  | nil => intro c t h; cases h
  | cons a rest ih =>
    intro c t h
    unfold collapseAux at h
    by_cases ha : a.isWhitespace = true
    · rw [if_pos ha] at h
      simp only [if_pos, List.nil_append] at h
      exact ih c t h
    · rw [if_neg ha] at h
      injection h with h1 h2
      subst h1
      cases hx : a.isWhitespace
      · rfl
      · exact absurd hx ha

lemma collapseAux_wsOk : ∀ (l : Str) (b : Bool), wsOk (collapseAux b l) := by
  intro l
  induction l with
  | nil =>
    intro b
    refine ⟨?_, ?_⟩
    · intro c hc hw
      simp [collapseAux] at hc
    · exact List.chain'_nil
  | cons a rest ih =>
    intro b
    constructor
    · intro c hc hw
      unfold collapseAux at hc
      by_cases ha : a.isWhitespace = true
      · rw [if_pos ha] at hc
        rcases List.mem_append.mp hc with h1 | h2
        · split at h1
          · cases h1
          · rcases List.mem_singleton.mp h1 with rfl
            rfl
        · exact (ih true).1 c h2 hw
      · rw [if_neg ha] at hc
        rcases List.mem_cons.mp hc with rfl | h2
        · exact absurd hw ha
        · exact (ih false).1 c h2 hw
    · unfold collapseAux
      by_cases ha : a.isWhitespace = true
      · rw [if_pos ha]
        cases b
        · simp only [Bool.false_eq_true, if_false, List.singleton_append]
          rw [List.chain'_cons']
          refine ⟨?_, (ih true).2⟩
          intro d hd
          intro hx2
          cases hcc : collapseAux true rest with
          | nil => rw [hcc] at hd; cases hd
          | cons e t2 =>
            rw [hcc] at hd
            simp only [List.head?_cons, Option.mem_def, Option.some_inj] at hd
            subst hd
            have he := collapseAux_true_head rest e t2 hcc
            rw [he] at hx2
            exact absurd hx2.2 (by simp)
        · simp only [if_pos, List.nil_append]
          exact (ih true).2
      · rw [if_neg ha]
        rw [List.chain'_cons']
        refine ⟨?_, (ih false).2⟩
        intro d _
        exact fun hx => ha hx.1

lemma wsOk_infix_mono {l m : Str} (h : wsOk l) (hm : m <:+: l) : wsOk m :=
  ⟨fun c hc hw => h.1 c (hm.subset hc) hw, List.Chain'.infix h.2 hm⟩

lemma collapseAux_eq_self (l : Str) (h : wsOk l) :
    collapseAux false l = l ∧
      (∀ c t, l = c :: t → c.isWhitespace = false → collapseAux true l = l) := by
  induction l with
  | nil => exact ⟨rfl, fun c t h2 => by cases h2⟩
  | cons a rest ih =>
    have hrest : wsOk rest :=
      ⟨fun c hc hw => h.1 c (List.mem_cons_of_mem _ hc) hw, (List.chain'_cons'.mp h.2).2⟩
    have ihr := ih hrest
    constructor
    · unfold collapseAux
      by_cases ha : a.isWhitespace = true
      · rw [if_pos ha]
        have ha2 : a = ' ' := h.1 a (List.mem_cons_self _ _) ha
        have htail : collapseAux true rest = rest := by
          cases rest with
          | nil => rfl
          | cons d t =>
            have hadj := (List.chain'_cons'.mp h.2).1 d rfl
            have hd : d.isWhitespace = false := by
              cases hy : d.isWhitespace
              · rfl
              · exact absurd ⟨ha, hy⟩ hadj
            exact ihr.2 d t rfl hd
        rw [htail, ha2]
        simp
      · rw [if_neg ha, ihr.1]
    · intro c t hl hc
      injection hl with h1 h2
      subst h1
      subst h2
      unfold collapseAux
      rw [if_neg (by rw [hc]; simp)]
      rw [ihr.1]

lemma collapseWs_eq_self {l : Str} (h : wsOk l) : collapseWs l = l :=
  (collapseAux_eq_self l h).1

lemma cleanTextStr_str_cases (s0 s2 : Str) (h : cleanTextStr s0 = Val.str s2) :
    s2 = trimStr (collapseWs (trimStr s0)) ∧ ¬(trimStr s0).isEmpty = true ∧
      ¬junkWords.contains (lowerStr s2) = true := by
  simp only [cleanTextStr] at h
  split_ifs at h with h1 h2
  injection h with h3
  subst h3
  exact ⟨rfl, h1, h2⟩

lemma cleanTextStr_fix (s0 s2 : Str) (h : cleanTextStr s0 = Val.str s2) :
    cleanTextStr s2 = Val.str s2 := by
  obtain ⟨hs2, h1, h2⟩ := cleanTextStr_str_cases s0 s2 h
  subst hs2
  have htrim := trimStr_idem (collapseWs (trimStr s0))
  have hne : trimStr (collapseWs (trimStr s0)) ≠ [] := by
    have hs0 : trimStr s0 ≠ [] := by
      intro hx
      rw [hx] at h1
      exact h1 rfl
    obtain ⟨c, hc, hcw⟩ := trimStr_nonws_exists s0 hs0
    intro hx
    rw [trimStr_eq_nil_iff] at hx
    have hmem : c ∈ collapseWs (trimStr s0) :=
      mem_collapseAux_of_not_ws hcw (trimStr s0) false hc
    have h3 := hx c hmem
    rw [hcw] at h3
    cases h3
  have hwsok : wsOk (trimStr (collapseWs (trimStr s0))) :=
    wsOk_infix_mono (collapseAux_wsOk (trimStr s0) false) (trimStr_infix_self _)
  have hcol : collapseWs (trimStr (collapseWs (trimStr s0))) = trimStr (collapseWs (trimStr s0)) :=
    collapseWs_eq_self hwsok
  have hne2 : (trimStr (collapseWs (trimStr s0))).isEmpty = false := by
    cases hx : trimStr (collapseWs (trimStr s0))
    · exact absurd hx hne
    · rfl
  simp only [cleanTextStr]
  rw [htrim, hcol, htrim, hne2]
  simp only [Bool.false_eq_true, if_false]
  rw [if_neg h2]

lemma clean_text_out_fix (s0 : Str) : clean_text (cleanTextStr s0) = cleanTextStr s0 := by
  cases h : cleanTextStr s0 with
  | none => rfl
  | str s2 => exact cleanTextStr_fix s0 s2 h
  | nan =>
    simp only [cleanTextStr] at h
    split_ifs at h
  | num q =>
    simp only [cleanTextStr] at h
    split_ifs at h
  | bool b =>
    simp only [cleanTextStr] at h
    split_ifs at h

lemma clean_text_idem (v : Val) : clean_text (clean_text v) = clean_text v := by
  cases v with
  | none => rfl
  | nan => exact clean_text_out_fix (pyStr Val.nan)
  | str s => exact clean_text_out_fix (pyStr (Val.str s))
  | num q => exact clean_text_out_fix (pyStr (Val.num q))
  | bool b => exact clean_text_out_fix (pyStr (Val.bool b))

lemma clean_number_shape (v : Val) :
    clean_number v = Val.none ∨ clean_number v = Val.nan ∨ ∃ q, clean_number v = Val.num q := by
  cases v with
  | none => exact Or.inl rfl
  | nan => exact Or.inr (Or.inl rfl)
  | num q => exact Or.inr (Or.inr ⟨q, rfl⟩)
  | bool b => exact Or.inr (Or.inr ⟨if b then 1 else 0, rfl⟩)
  | str s0 =>
    simp only [clean_number]
    split_ifs
    · exact Or.inl rfl
    · exact Or.inl rfl
    · split
      · rename_i q hq
        exact Or.inr (Or.inr ⟨q, rfl⟩)
      · exact Or.inl rfl

lemma clean_number_idem (v : Val) : clean_number (clean_number v) = clean_number v := by
  rcases clean_number_shape v with h | h | ⟨q, h⟩ <;> rw [h] <;> rfl

lemma colsOf_eq (rows : List (List (Str × Val))) :
    colsOf rows = rows.foldl (fun acc r => r.foldl colStep acc) [] := rfl

lemma foldl_colStep_noop (r : List (Str × Val)) :
    ∀ acc : List Str, (∀ kv ∈ r, kv.1 ∈ acc) → r.foldl colStep acc = acc := by
  induction r with
  | nil => intro acc _; rfl
  | cons kv rest ih =>
    intro acc h
    rw [List.foldl_cons]
    have hm : kv.1 ∈ acc := h kv (List.mem_cons_self _ _)
    rw [show colStep acc kv = acc from by simp [colStep, hm]]
    exact ih acc fun x hx => h x (List.mem_cons_of_mem _ hx)

lemma foldl_colStep_news (r : List (Str × Val)) :
    ∀ acc : List Str, (r.map Prod.fst).Nodup → (∀ kv ∈ r, kv.1 ∉ acc) →
      r.foldl colStep acc = acc ++ r.map Prod.fst := by
  induction r with
  | nil => intro acc _ _; simp
  | cons kv rest ih =>
    intro acc hnd hnew
    rw [List.foldl_cons]
    have hm : kv.1 ∉ acc := hnew kv (List.mem_cons_self _ _)
    rw [show colStep acc kv = acc ++ [kv.1] from by simp [colStep, hm]]
    rw [List.map_cons] at hnd
    have hhd : kv.1 ∉ rest.map Prod.fst := (List.nodup_cons.mp hnd).1
    have hnew2 : ∀ x ∈ rest, x.1 ∉ acc ++ [kv.1] := by
      intro x hx hmem
      rcases List.mem_append.mp hmem with h1 | h1
      · exact hnew x (List.mem_cons_of_mem _ hx) h1
      · have hx1 : x.1 = kv.1 := by simpa using h1
        exact hhd (hx1 ▸ List.mem_map_of_mem Prod.fst hx)
    rw [ih (acc ++ [kv.1]) (List.nodup_cons.mp hnd).2 hnew2, List.map_cons, List.append_assoc,
      List.singleton_append]

lemma foldl_colStep_nodup (r : List (Str × Val)) :
    ∀ acc : List Str, acc.Nodup → (r.foldl colStep acc).Nodup := by
  induction r with
  | nil => intro acc h; exact h
  | cons kv rest ih =>
    intro acc h
    rw [List.foldl_cons]
    apply ih
    by_cases hm : kv.1 ∈ acc
    · simpa [colStep, hm] using h
    · rw [show colStep acc kv = acc ++ [kv.1] from by simp [colStep, hm]]
      rw [List.nodup_append]
      refine ⟨h, List.nodup_singleton _, ?_⟩
      intro x hx hx2
      rw [List.mem_singleton] at hx2
      subst hx2
      exact hm hx

lemma colsOf_nodup (rows : List (List (Str × Val))) : (colsOf rows).Nodup := by
  rw [colsOf_eq]
  have main : ∀ (rs : List (List (Str × Val))) (acc : List Str), acc.Nodup →
      (rs.foldl (fun acc r => r.foldl colStep acc) acc).Nodup := by
    intro rs
    induction rs with
    | nil => intro acc h; exact h
    | cons r rest ih =>
      intro acc h
      rw [List.foldl_cons]
      exact ih _ (foldl_colStep_nodup r acc h)
  exact main rows [] List.nodup_nil

lemma colsOf_zip_rows (cols : List Str) (cells : List (List Val))
    (hnd : cols.Nodup) (hlen : ∀ r ∈ cells, r.length = cols.length) (hne : cells ≠ []) :
    colsOf (cells.map (fun r => cols.zip r)) = cols := by
  have hkeys : ∀ r ∈ cells, (cols.zip r).map Prod.fst = cols := by
    intro r hr
    exact List.map_fst_zip _ _ (le_of_eq (hlen r hr).symm)
  cases cells with
  | nil => exact absurd rfl hne
  | cons r0 rest =>
    rw [colsOf_eq, List.map_cons, List.foldl_cons]
    have h1 : (cols.zip r0).foldl colStep [] = cols := by
      have h2 := foldl_colStep_news (cols.zip r0) []
        (by rw [hkeys r0 (List.mem_cons_self _ _)]; exact hnd)
        (by intro kv _ hmem; exact absurd hmem (List.not_mem_nil _))
      rw [hkeys r0 (List.mem_cons_self _ _)] at h2
      simpa using h2
    rw [h1]
    have main : ∀ rs : List (List Val), (∀ r ∈ rs, r.length = cols.length) →
        (rs.map (fun r => cols.zip r)).foldl (fun acc r => r.foldl colStep acc) cols = cols := by
      intro rs
      induction rs with
      | nil => intro _; rfl
      | cons r rest2 ih2 =>
        intro hl
        rw [List.map_cons, List.foldl_cons]
        have hmem : ∀ kv ∈ cols.zip r, kv.1 ∈ cols := by
          intro kv hkv
          obtain ⟨a, b⟩ := kv
          exact (List.of_mem_zip hkv).1
        rw [foldl_colStep_noop (cols.zip r) cols hmem]
        exact ih2 fun x hx => hl x (List.mem_cons_of_mem _ hx)
    exact main rest fun x hx => hlen x (List.mem_cons_of_mem _ hx)

lemma gridRow_zip : ∀ cols : List Str, cols.Nodup →
    ∀ r : List Val, r.length = cols.length → gridRow cols (cols.zip r) = r := by
  intro cols
  induction cols with
  | nil =>
    intro _ r hlen
    have hr : r = [] := List.length_eq_zero.mp (by simpa using hlen)
    subst hr
    rfl
  | cons c cs ih =>
    intro hnd r hlen
    cases r with
    | nil => simp at hlen
    | cons v vs =>
      simp only [gridRow, List.zip_cons_cons, List.map_cons]
      congr 1
      · simp [List.lookup]
      · have hcs : c ∉ cs := (List.nodup_cons.mp hnd).1
        have hcongr : ∀ c2 ∈ cs, (((c, v) :: cs.zip vs).lookup c2).getD Val.nan =
            ((cs.zip vs).lookup c2).getD Val.nan := by
          intro c2 hc2
          have hne2 : (c2 == c) = false := by
            rw [beq_eq_false_iff_ne]
            exact fun he => hcs (he ▸ hc2)
          simp [List.lookup, hne2]
        rw [List.map_congr_left hcongr]
        have hmain := ih (List.nodup_cons.mp hnd).2 vs (by simpa using hlen)
        simpa [gridRow] using hmain

lemma gridRow_length (cols : List Str) (r : List (Str × Val)) :
    (gridRow cols r).length = cols.length := by
  simp [gridRow]

lemma cleanRow_length (cols : List Str) (row : List Val) :
    (cleanRow cols row).length = min cols.length row.length := by
  simp [cleanRow]

lemma cleanRow_nil_right (cols : List Str) : cleanRow cols [] = [] := by
  cases cols <;> rfl

lemma cleanRow_cons (c : Str) (cs : List Str) (v : Val) (vs : List Val) :
    cleanRow (c :: cs) (v :: vs) =
      (if isNumericCol c = true then clean_number v else clean_text v) :: cleanRow cs vs := rfl

lemma cleanRow_idem : ∀ (cols : List Str) (row : List Val),
    cleanRow cols (cleanRow cols row) = cleanRow cols row := by
  intro cols
  induction cols with
  | nil => intro row; rfl
  | cons c cs ih =>
    intro row
    cases row with
    | nil => rw [cleanRow_nil_right, cleanRow_nil_right]
    | cons v vs =>
      rw [cleanRow_cons, cleanRow_cons, ih vs]
      congr 1
      by_cases hn : isNumericCol c = true
      · rw [if_pos hn, if_pos hn, clean_number_idem]
      · rw [if_neg hn, if_neg hn, clean_text_idem]

lemma dedupRows_subset : ∀ (l seen : List (List Val)) (x : List Val),
    x ∈ dedupRows seen l → x ∈ l := by
  intro l
  induction l with
  | nil => intro seen x h; exact absurd h (List.not_mem_nil x)
  | cons r rest ih =>
    intro seen x h
    simp only [dedupRows] at h
    by_cases hc : seen.contains (r.map valKey) = true
    · rw [if_pos hc] at h
      exact List.mem_cons_of_mem _ (ih seen x h)
    · rw [if_neg hc] at h
      rcases List.mem_cons.mp h with rfl | h1
      · exact List.mem_cons_self _ _
      · exact List.mem_cons_of_mem _ (ih _ x h1)

lemma dedupRows_nodup_keys : ∀ l seen : List (List Val),
    ((dedupRows seen l).map (fun r => r.map valKey)).Nodup ∧
      ∀ x ∈ dedupRows seen l, x.map valKey ∉ seen := by
  intro l
  induction l with
  | nil =>
    intro seen
    refine ⟨List.nodup_nil, ?_⟩
    intro x hx
    exact absurd hx (List.not_mem_nil x)
  | cons r rest ih =>
    intro seen
    simp only [dedupRows]
    by_cases hc : seen.contains (r.map valKey) = true
    · rw [if_pos hc]
      exact ih seen
    · rw [if_neg hc]
      have hnotin : r.map valKey ∉ seen := fun hmem => hc (List.elem_iff.mpr hmem)
      constructor
      · rw [List.map_cons, List.nodup_cons]
        constructor
        · intro hmem
          rcases List.mem_map.mp hmem with ⟨x, hx, hkey⟩
          exact (ih (r.map valKey :: seen)).2 x hx (by rw [hkey]; exact List.mem_cons_self _ _)
        · exact (ih (r.map valKey :: seen)).1
      · intro x hx
        rcases List.mem_cons.mp hx with rfl | h1
        · exact hnotin
        · intro hmem
          exact (ih (r.map valKey :: seen)).2 x h1 (List.mem_cons_of_mem _ hmem)

lemma dedupRows_eq_self : ∀ l seen : List (List Val),
    (l.map (fun r => r.map valKey)).Nodup → (∀ x ∈ l, x.map valKey ∉ seen) →
      dedupRows seen l = l := by
  intro l
  induction l with
  | nil => intro seen _ _; rfl
  | cons r rest ih =>
    intro seen hnd hdis
    simp only [dedupRows]
    have hc : ¬seen.contains (r.map valKey) = true :=
      fun hcc => hdis r (List.mem_cons_self _ _) (List.elem_iff.mp hcc)
    rw [if_neg hc]
    congr 1
    rw [List.map_cons, List.nodup_cons] at hnd
    apply ih
    · exact hnd.2
    · intro x hx hmem
      rcases List.mem_cons.mp hmem with heq | h1
      · exact hnd.1 (by rw [← heq]; exact List.mem_map_of_mem _ hx)
      · exact hdis x (List.mem_cons_of_mem _ hx) h1

lemma postprocess_rows_eq (rows : List (List (Str × Val))) (hrows : rows.isEmpty = false) :
    postprocess_rows rows =
      (⟨colsOf rows,
        dedupRows []
          ((rows.map (fun r => cleanRow (colsOf rows) (gridRow (colsOf rows) r))).filter
            (fun row => !row.all isNA))⟩,
        ((rows.map (fun r => cleanRow (colsOf rows) (gridRow (colsOf rows) r))).filter
            (fun row => !row.all isNA)).length -
          (dedupRows []
            ((rows.map (fun r => cleanRow (colsOf rows) (gridRow (colsOf rows) r))).filter
              (fun row => !row.all isNA))).length) := by
  simp only [postprocess_rows, hrows, Bool.false_eq_true, if_false]

lemma postprocess_roundtrip (cols : List Str) (dd : List (List Val))
    (hnd : cols.Nodup)
    (hlen : ∀ r ∈ dd, r.length = cols.length)
    (hfix : ∀ r ∈ dd, cleanRow cols r = r)
    (hpred : ∀ r ∈ dd, (!r.all isNA) = true)
    (hkeys : (dd.map (fun r => r.map valKey)).Nodup)
    (hne : dd ≠ []) :
    postprocess_rows (tableToRows ⟨cols, dd⟩) = (⟨cols, dd⟩, 0) := by
  have htr : tableToRows ⟨cols, dd⟩ = dd.map (fun r => cols.zip r) := rfl
  rw [htr]
  have hrows2 : (dd.map (fun r => cols.zip r)).isEmpty = false := by
    cases dd with
    | nil => exact absurd rfl hne
    | cons a b => rfl
  rw [postprocess_rows_eq _ hrows2]
  have hcols2 : colsOf (dd.map (fun r => cols.zip r)) = cols :=
    colsOf_zip_rows cols dd hnd hlen hne
  rw [hcols2]
  have hclean2 :
      (dd.map (fun r => cols.zip r)).map (fun r => cleanRow cols (gridRow cols r)) = dd := by
    rw [List.map_map]
    have hpt : ∀ r ∈ dd, cleanRow cols (gridRow cols (cols.zip r)) = r := by
      intro r hr
      rw [gridRow_zip cols hnd r (hlen r hr)]
      exact hfix r hr
    calc dd.map ((fun r => cleanRow cols (gridRow cols r)) ∘ fun r => cols.zip r)
        = dd.map (fun r => cleanRow cols (gridRow cols (cols.zip r))) := rfl
      _ = dd.map id := List.map_congr_left fun r hr => hpt r hr
      _ = dd := List.map_id _
  rw [hclean2, List.filter_eq_self.mpr hpred,
    dedupRows_eq_self dd [] hkeys (by intro x _ hmem; exact absurd hmem (List.not_mem_nil _)),
    Nat.sub_self]

/-- **C6** (corrected).  The Row Normalizer is idempotent on every input whose
output table still has at least one row: re-applying `postprocess_rows` to the
rows of its own output yields the very same table (same columns, same values,
same row order) and reports zero further duplicates removed.  The unrestricted
claim fails: when the output table has columns but no rows, re-application
forgets the columns (see the counterexample). -/
theorem C6_normalizer_idempotent_on_nonempty (rows : List (List (Str × Val)))
    (h : (postprocess_rows rows).1.cells ≠ []) :
    postprocess_rows (tableToRows (postprocess_rows rows).1) =
      ((postprocess_rows rows).1, 0) := by
  have hrows : rows.isEmpty = false := by
    cases hx : rows with
    | nil =>
      subst hx
      exact absurd (by decide) h
    | cons a b =>
      subst hx
      rfl
  rw [postprocess_rows_eq rows hrows] at h ⊢
  set cols := colsOf rows with hcolsdef
  set cleaned := rows.map (fun r => cleanRow cols (gridRow cols r)) with hcleandef
  set kept := cleaned.filter (fun row => !row.all isNA) with hkeptdef
  set dd := dedupRows [] kept with hdddef
  show postprocess_rows (tableToRows ⟨cols, dd⟩) = (⟨cols, dd⟩, 0)
  refine postprocess_roundtrip cols dd ?_ ?_ ?_ ?_ ?_ ?_
  · rw [hcolsdef]
    exact colsOf_nodup rows
  · intro r hr
    have hr2 : r ∈ kept := dedupRows_subset kept [] r (hdddef ▸ hr)
    have hr3 : r ∈ cleaned := List.mem_of_mem_filter (hkeptdef ▸ hr2)
    rcases List.mem_map.mp (hcleandef ▸ hr3) with ⟨orig, _, heq⟩
    rw [← heq, cleanRow_length, gridRow_length, Nat.min_self]
  · intro r hr
    have hr2 : r ∈ kept := dedupRows_subset kept [] r (hdddef ▸ hr)
    have hr3 : r ∈ cleaned := List.mem_of_mem_filter (hkeptdef ▸ hr2)
    rcases List.mem_map.mp (hcleandef ▸ hr3) with ⟨orig, _, heq⟩
    rw [← heq, cleanRow_idem]
  · intro r hr
    have hr2 : r ∈ kept := dedupRows_subset kept [] r (hdddef ▸ hr)
    rw [hkeptdef] at hr2
    exact (List.mem_filter.mp hr2).2
  · rw [hdddef]
    exact (dedupRows_nodup_keys kept []).1
  · exact h

/-- Concrete input with a duplicate row, used to witness the corrected C6
theorem. -/
def cexDupRows : List (List (Str × Val)) :=
  [[(("name").data, Val.str ("X").data), (("price").data, Val.str ("1299").data)],
   [(("name").data, Val.str ("X").data), (("price").data, Val.str ("1299").data)]]

/-- Witness for the corrected C6 theorem: the duplicate-row input has a
non-empty output, on which the normalizer is idempotent with zero further
duplicates removed. -/
theorem C6_normalizer_idempotent_on_nonempty_witness :
    (postprocess_rows cexDupRows).1.cells ≠ [] ∧
      postprocess_rows (tableToRows (postprocess_rows cexDupRows).1) =
        ((postprocess_rows cexDupRows).1, 0) :=
  ⟨by decide, C6_normalizer_idempotent_on_nonempty cexDupRows (by decide)⟩

/-! ## C7: character-class and scanning toolkit -/

lemma ws_false_of_ge {c : Char} (h : 33 ≤ c.toNat) : c.isWhitespace = false := by
  simp only [Char.isWhitespace]
  have h1 : ¬c = ' ' := fun he => by rw [he] at h; exact absurd h (by decide)
  have h2 : ¬c = '\t' := fun he => by rw [he] at h; exact absurd h (by decide)
  have h3 : ¬c = '\r' := fun he => by rw [he] at h; exact absurd h (by decide)
  have h4 : ¬c = '\n' := fun he => by rw [he] at h; exact absurd h (by decide)
  simp [h1, h2, h3, h4]

lemma isDigit_false_of_ge {c : Char} (h : 58 ≤ c.toNat) : c.isDigit = false := by
  cases hx : c.isDigit
  · rfl
  · exfalso
    simp [Char.isDigit] at hx
    have h2 : c.toNat ≤ 57 := hx.2
    omega

lemma isDigit_toNat {c : Char} (h : c.isDigit = true) : 48 ≤ c.toNat ∧ c.toNat ≤ 57 := by
  simp [Char.isDigit] at h
  exact ⟨h.1, h.2⟩

lemma toLower_fix {c : Char} (h : c.toNat < 65 ∨ 90 < c.toNat) : c.toLower = c := by
  show (if c.toNat ≥ 65 ∧ c.toNat ≤ 90 then Char.ofNat (c.toNat + 32) else c) = c
  rw [if_neg (by omega)]

lemma beq_false_of_toNat_ne {a c : Char} (h : a.toNat ≠ c.toNat) : (a == c) = false := by
  rw [beq_eq_false_iff_ne]
  exact fun he => h (congrArg Char.toNat he)

lemma phraseClassChar_letter {c : Char} (h1 : 97 ≤ c.toNat) (h2 : c.toNat ≤ 122) :
    phraseClassChar c = true := by
  simp [phraseClassChar]
  exact Or.inl (Or.inl (Or.inl (Or.inl ⟨h1, h2⟩)))

lemma phraseClassChar_digit {c : Char} (h : c.isDigit = true) : phraseClassChar c = true := by
  simp [phraseClassChar, h]

lemma isPrefixOf_head_false (a c : Char) (as bs : Str) (h : (a == c) = false) :
    List.isPrefixOf (a :: as) (c :: bs) = false := by
  simp [List.isPrefixOf, h]

lemma isPrefixOf_append_self (l t : Str) : l.isPrefixOf (l ++ t) = true := by
  rw [List.isPrefixOf_iff_prefix]
  exact List.prefix_append l t

lemma suffix_split {α : Type} : ∀ (l1 : List α) (l l2 : List α), l <:+ l1 ++ l2 →
    l <:+ l2 ∨ ∃ u, u <:+ l1 ∧ l = u ++ l2 := by
  intro l1
  induction l1 with
  | nil => intro l l2 h; exact Or.inl h
  | cons a l1 ih =>
    intro l l2 h
    rw [List.cons_append, List.suffix_cons_iff] at h
    rcases h with rfl | h2
    · exact Or.inr ⟨a :: l1, List.suffix_refl _, rfl⟩
    · rcases ih l l2 h2 with h3 | ⟨u, hu, rfl⟩
      · exact Or.inl h3
      · exact Or.inr ⟨u, hu.trans (List.suffix_cons a l1), rfl⟩

lemma prefix_before_space : ∀ (pat x y : Str), ' ' ∉ pat → pat <+: x ++ ' ' :: y → pat <+: x := by
  intro pat
  induction pat with
  | nil => intro x y _ _; exact List.nil_prefix
  | cons c p ih =>
    intro x y hsp h
    cases x with
    | nil =>
      rw [List.nil_append, List.cons_prefix_cons] at h
      exact absurd (by rw [← h.1]; exact List.mem_cons_self _ _) hsp
    | cons a x2 =>
      rw [List.cons_append, List.cons_prefix_cons] at h
      rw [List.cons_prefix_cons]
      exact ⟨h.1, ih x2 y (fun hm => hsp (List.mem_cons_of_mem _ hm)) h.2⟩

lemma infix_split_space (pat : Str) (hsp : ' ' ∉ pat) :
    ∀ (x y : Str), pat <:+: x ++ ' ' :: y → pat <:+: x ∨ pat <:+: y := by
  intro x
  induction x with
  | nil =>
    intro y h
    rw [List.nil_append, List.infix_cons_iff] at h
    rcases h with h1 | h2
    · cases pat with
      | nil => exact Or.inl List.nil_infix
      | cons c p =>
        rw [List.cons_prefix_cons] at h1
        exact absurd (by rw [← h1.1]; exact List.mem_cons_self _ _) hsp
    · exact Or.inr h2
  | cons a x2 ih =>
    intro y h
    rw [List.cons_append, List.infix_cons_iff] at h
    rcases h with h1 | h2
    · exact Or.inl (prefix_before_space pat (a :: x2) y hsp h1).isInfix
    · rcases ih y h2 with h3 | h3
      · exact Or.inl (h3.trans (List.suffix_cons a x2).isInfix)
      · exact Or.inr h3

lemma scanOptB_none_of {α : Type} (f : Str → Option α) :
    ∀ (s : Str) (prev : Option Char),
      (∀ t, t <:+ s → t ≠ [] → f t = Option.none) → scanOptB f prev s = Option.none := by
  intro s
  induction s with
  | nil => intro prev _; rfl
  | cons c rest ih =>
    intro prev h
    unfold scanOptB
    rw [h (c :: rest) (List.suffix_refl _) (by simp)]
    have h2 : (if noWordBefore prev = true then (Option.none : Option α) else Option.none) =
        Option.none := by split <;> rfl
    rw [h2]
    exact ih (some c) fun t ht hne => h t (ht.trans (List.suffix_cons c rest)) hne

/-- The previous-character state of `scanOptB` after consuming `x`. -/
def prevAfter (prev : Option Char) (x : Str) : Option Char :=
  match x.getLast? with
  | some c => some c
  | Option.none => prev

lemma prevAfter_cons (prev : Option Char) (c : Char) (x : Str) :
    prevAfter prev (c :: x) = prevAfter (some c) x := by
  cases x with
  | nil => rfl
  | cons e t =>
    show (match (c :: e :: t).getLast? with | some x => some x | Option.none => prev) =
      (match (e :: t).getLast? with | some x => some x | Option.none => some c)
    rw [List.getLast?_cons_cons]
    cases hg : (e :: t).getLast? with
    | none => simp at hg
    | some a => rfl

lemma scanOptB_cons_none {α : Type} (f : Str → Option α) (prev : Option Char) (c : Char)
    (rest : Str) (hf : f (c :: rest) = Option.none) :
    scanOptB f prev (c :: rest) = scanOptB f (some c) rest := by
  conv_lhs => unfold scanOptB
  rw [hf]
  have h2 : (if noWordBefore prev = true then (Option.none : Option α) else Option.none) =
      Option.none := by split <;> rfl
  rw [h2]

lemma scanOptB_append {α : Type} (f : Str → Option α) :
    ∀ (x y : Str) (prev : Option Char),
      (∀ u t, x = u ++ t → t ≠ [] → f (t ++ y) = Option.none) →
      scanOptB f prev (x ++ y) = scanOptB f (prevAfter prev x) y := by
  intro x
  induction x with
  | nil => intro y prev _; rfl
  | cons c x2 ih =>
    intro y prev h
    rw [List.cons_append]
    have hf : f (c :: (x2 ++ y)) = Option.none := by
      have h0 := h [] (c :: x2) rfl (by simp)
      rwa [List.cons_append] at h0
    rw [scanOptB_cons_none f prev c (x2 ++ y) hf, prevAfter_cons]
    exact ih y (some c) fun u t hx hne => h (c :: u) t (by rw [hx, List.cons_append]) hne

lemma scanOptB_cons_found {α : Type} (f : Str → Option α) (prev : Option Char) (c : Char)
    (rest : Str) (hb : noWordBefore prev = true) (r : α) (hf : f (c :: rest) = some r) :
    scanOptB f prev (c :: rest) = some r := by
  simp [scanOptB, hb, hf]

lemma matchKwPhrase_none (kw t : Str) (h : ¬kw <+: t) : matchKwPhrase kw t = Option.none := by
  simp only [matchKwPhrase]
  rw [show kw.isPrefixOf t = false from by
    rw [← Bool.not_eq_true]
    exact fun hx => h (List.isPrefixOf_iff_prefix.mp hx)]
  simp

lemma scan_matchKwPhrase_none (kw s : Str) (prev : Option Char) (h : ¬kw <:+: s) :
    scanOptB (matchKwPhrase kw) prev s = Option.none := by
  apply scanOptB_none_of
  intro t ht _
  apply matchKwPhrase_none
  intro hp
  exact h (List.infix_iff_prefix_suffix.mpr ⟨t, hp, ht⟩)

lemma matchFieldOp_none (t : Str) (hnc : ∀ c ∈ t, c.toNat < 60 ∨ 62 < c.toNat) :
    matchFieldOp t = Option.none := by
  simp only [matchFieldOp]
  rw [List.findSome?_eq_none_iff]
  intro fw _
  split_ifs with hp
  · rw [List.findSome?_eq_none_iff]
    intro op hop
    have hsub : ∀ c ∈ (t.drop fw.length).dropWhile Char.isWhitespace, c ∈ t := by
      intro c hc
      have h1 := (List.dropWhile_suffix Char.isWhitespace).subset hc
      exact (List.drop_suffix _ _).subset h1
    have hfalse : op.isPrefixOf ((t.drop fw.length).dropWhile Char.isWhitespace) = false := by
      cases hr : (t.drop fw.length).dropWhile Char.isWhitespace with
      | nil =>
        simp [cmpOps] at hop
        rcases hop with rfl | rfl | rfl | rfl | rfl <;> rfl
      | cons c r2 =>
        have hct := hnc c (hsub c (by rw [hr]; exact List.mem_cons_self _ _))
        simp [cmpOps] at hop
        rcases hop with rfl | rfl | rfl | rfl | rfl <;>
          refine isPrefixOf_head_false _ c _ r2 (beq_false_of_toNat_ne ?_) <;>
          · intro he
            rw [← he] at hct
            exact absurd hct (by decide)
    rw [hfalse]
    simp
  · rfl

/-- Any suffix of `s` that starts with a digit consists of digits only:
the shape of prompts whose digits all sit in a digit-block at the end. -/
def DigitTail (s : Str) : Prop :=
  ∀ t, t <:+ s → ∀ c r, t = c :: r → c.isDigit = true → ∀ x ∈ t, x.isDigit = true

lemma digitTail_append (A d : Str) (hA : ∀ c ∈ A, c.isDigit = false)
    (hd : ∀ c ∈ d, c.isDigit = true) : DigitTail (A ++ d) := by
  intro t ht c r htc hdig x hx
  rcases suffix_split A t d ht with h1 | ⟨u, hu, rfl⟩
  · exact hd x (h1.subset hx)
  · cases u with
    | nil => exact hd x (by simpa using hx)
    | cons a u2 =>
      rw [List.cons_append] at htc
      injection htc with h1 h2
      have hcf : a.isDigit = false := hA a (hu.subset (List.mem_cons_self _ _))
      rw [← h1] at hdig
      rw [hcf] at hdig
      cases hdig

lemma matchDirNumK_none (words : List Str) (s t : Str) (hD : DigitTail s) (ht : t <:+ s) :
    matchDirNumK words t = Option.none := by
  simp only [matchDirNumK]
  rw [List.findSome?_eq_none_iff]
  intro w hw
  by_cases hp : w.isPrefixOf t = true
  · rw [if_pos hp]
    by_cases hsp : ((t.drop w.length).takeWhile Char.isWhitespace).isEmpty = true
    · rw [if_pos hsp]
    · rw [if_neg hsp]
      by_cases hds : (((t.drop w.length).drop
          ((t.drop w.length).takeWhile Char.isWhitespace).length).takeWhile
            Char.isDigit).isEmpty = true
      · rw [if_pos hds]
      · rw [if_neg hds]
        have hex : ∃ c r, (t.drop w.length).drop
            ((t.drop w.length).takeWhile Char.isWhitespace).length = c :: r := by
          cases hr0 : (t.drop w.length).drop
              ((t.drop w.length).takeWhile Char.isWhitespace).length with
          | nil => rw [hr0] at hds; exact absurd rfl hds
          | cons c r => exact ⟨c, r, rfl⟩
        obtain ⟨c, r, hr2⟩ := hex
        have hcd : c.isDigit = true := by
          by_contra hcx
          rw [Bool.not_eq_true] at hcx
          rw [hr2] at hds
          simp [List.takeWhile_cons, hcx] at hds
        have hsub : (t.drop w.length).drop
            ((t.drop w.length).takeWhile Char.isWhitespace).length <:+ s :=
          ((List.drop_suffix _ _).trans (List.drop_suffix _ _)).trans ht
        have hall := hD _ hsub c r hr2 hcd
        have htw := List.takeWhile_eq_self_iff.mpr hall
        rw [htw, List.drop_length]
        rfl
  · rw [if_neg hp]

lemma matchDirNum3_none_of_noword (words : List Str) (t : Str)
    (h : ∀ w ∈ words, w.isPrefixOf t = false) : matchDirNum3 words t = Option.none := by
  simp only [matchDirNum3]
  rw [List.findSome?_eq_none_iff]
  intro w hw
  rw [h w hw]
  simp

lemma chain_wsAdj_of_nows (l : Str) (h : ∀ c ∈ l, c.isWhitespace = false) :
    List.Chain' wsAdj l := by
  induction l with
  | nil => exact List.chain'_nil
  | cons a rest ih =>
    rw [List.chain'_cons']
    refine ⟨?_, ih fun c hc => h c (List.mem_cons_of_mem _ hc)⟩
    intro e _ hx
    rw [h a (List.mem_cons_self _ _)] at hx
    exact Bool.false_ne_true hx.1

lemma trimStr_eq_self (s : Str) (h1 : ∀ c t, s = c :: t → c.isWhitespace = false)
    (h2 : ∀ c t, s.reverse = c :: t → c.isWhitespace = false) : trimStr s = s := by
  unfold trimStr
  have hd : s.dropWhile Char.isWhitespace = s := by
    cases hs : s with
    | nil => rfl
    | cons a t =>
      rw [List.dropWhile_cons, h1 a t hs]
      simp
  rw [hd]
  cases hrev : s.reverse with
  | nil =>
    rw [List.reverse_eq_nil_iff] at hrev
    subst hrev
    rfl
  | cons b u =>
    rw [List.dropWhile_cons, h2 b u hrev]
    simp only [Bool.false_eq_true, if_false]
    rw [← hrev, List.reverse_reverse]

lemma stripSet_eq_self (cs s : Str) (h : ∀ c ∈ s, cs.contains c = false) :
    stripSet cs s = s := by
  unfold stripSet
  have hds : s.dropWhile cs.contains = s := by
    cases hs : s with
    | nil => rfl
    | cons a t =>
      rw [List.dropWhile_cons, h a (by rw [hs]; exact List.mem_cons_self _ _)]
      simp
  rw [hds]
  cases hrev : s.reverse with
  | nil =>
    rw [List.reverse_eq_nil_iff] at hrev
    subst hrev
    rfl
  | cons b u =>
    rw [List.dropWhile_cons,
      h b (by rw [← List.mem_reverse, hrev]; exact List.mem_cons_self _ _)]
    simp only [Bool.false_eq_true, if_false]
    rw [← hrev, List.reverse_reverse]

lemma norm_eq_self (s : Str) (hlow : ∀ c ∈ s, c.toLower = c) (hws : wsOk s)
    (hh : ∀ c t, s = c :: t → c.isWhitespace = false)
    (hl : ∀ c t, s.reverse = c :: t → c.isWhitespace = false) : norm s = s := by
  unfold norm
  rw [trimStr_eq_self s hh hl]
  have hmap : lowerStr s = s := by
    unfold lowerStr
    rw [List.map_congr_left hlow]
    simp
  rw [hmap]
  exact collapseWs_eq_self hws

lemma splitFirstSep_eq_self : ∀ s : Str, (∀ sp ∈ separatorPats, ¬sp <:+: s) →
    splitFirstSep s = s := by
  intro s
  induction s with
  | nil => intro _; rfl
  | cons c rest ih =>
    intro h
    unfold splitFirstSep
    have hcond : separatorPats.any (fun sp => sp.isPrefixOf (c :: rest)) = false := by
      rw [← Bool.not_eq_true, List.any_eq_true]
      rintro ⟨sp, hsp, hpre⟩
      exact h sp hsp (List.isPrefixOf_iff_prefix.mp hpre).isInfix
    rw [hcond]
    simp only [Bool.false_eq_true, if_false]
    congr 1
    exact ih fun sp hsp hin => h sp hsp (hin.trans (List.suffix_cons c rest).isInfix)

lemma replaceAllAux_eq_self (pat rep : Str) :
    ∀ (fuel : Nat) (s : Str), ¬pat <:+: s → replaceAllAux pat rep fuel s = s := by
  intro fuel
  induction fuel with
  | zero => intro s _; cases s <;> rfl
  | succ n ih =>
    intro s h
    cases s with
    | nil => rfl
    | cons c rest =>
      have hp : pat.isPrefixOf (c :: rest) = false := by
        rw [← Bool.not_eq_true]
        intro hx
        exact h (List.isPrefixOf_iff_prefix.mp hx).isInfix
      simp only [replaceAllAux, hp, Bool.false_eq_true, if_false]
      congr 1
      exact ih rest fun hin => h (hin.trans (List.suffix_cons c rest).isInfix)

lemma replaceAll_eq_self (pat rep s : Str) (h : ¬pat <:+: s) : replaceAll pat rep s = s :=
  replaceAllAux_eq_self pat rep s.length s h

lemma pySplitAux_cons_nonws (acc : Str) (c : Char) (rest : Str) (hc : c.isWhitespace = false) :
    pySplitAux acc (c :: rest) = pySplitAux (c :: acc) rest := by
  simp only [pySplitAux, hc, Bool.false_eq_true, if_false]

lemma pySplitAux_cons_ws (acc : Str) (c : Char) (rest : Str) (hc : c.isWhitespace = true) :
    pySplitAux acc (c :: rest) =
      (if acc.isEmpty then [] else [acc.reverse]) ++ pySplitAux [] rest := by
  simp only [pySplitAux, hc, if_true]

lemma pySplitAux_block (s : Str) : ∀ (x acc : Str), (∀ c ∈ x, c.isWhitespace = false) →
    pySplitAux acc (x ++ s) = pySplitAux (x.reverse ++ acc) s := by
  intro x
  induction x with
  | nil => intro acc _; rfl
  | cons c x2 ih =>
    intro acc hx
    rw [List.cons_append, pySplitAux_cons_nonws _ _ _ (hx c (List.mem_cons_self _ _)),
      ih (c :: acc) fun e he => hx e (List.mem_cons_of_mem _ he), List.reverse_cons,
      List.append_assoc, List.singleton_append]

lemma pySplitAux_nil (acc : Str) :
    pySplitAux acc [] = if acc.isEmpty then [] else [acc.reverse] := rfl

lemma isEmpty_false_of_ne_nil {l : Str} (h : l ≠ []) : l.isEmpty = false := by
  cases l with
  | nil => exact absurd rfl h
  | cons a t => rfl

lemma reverse_ne_nil {l : Str} (h : l ≠ []) : l.reverse ≠ [] := by
  intro hx
  rw [List.reverse_eq_nil_iff] at hx
  exact h hx

lemma take_drop_group (c : Char) (R : Str) (k n : Nat) (hk : k = 1)
    (hn : n = R.length + 1) : ((c :: R).drop k).take (n - k) = R := by
  subst hk
  subst hn
  rw [show ((c :: R).drop 1) = R from rfl, Nat.add_sub_cancel, List.take_length]

lemma matchKwPhrase_only_pos (w d : Str) (hwne : w ≠ [])
    (hwss : ∀ c ∈ w, c.isWhitespace = false)
    (hwpc : ∀ c ∈ w, phraseClassChar c = true)
    (hdpc : ∀ c ∈ d, phraseClassChar c = true)
    (hd3 : 3 ≤ d.length) :
    matchKwPhrase (("only").data) (("only ").data ++ w ++ (" above ").data ++ d) =
      some (w ++ (" above ").data ++ d) := by
  obtain ⟨w0, w2, rfl⟩ : ∃ a l, w = a :: l := by
    cases w with
    | nil => exact absurd rfl hwne
    | cons a l => exact ⟨a, l, rfl⟩
  have hshape : ("only ").data ++ (w0 :: w2) ++ (" above ").data ++ d =
      ("only").data ++ (' ' :: ((w0 :: w2) ++ (" above ").data ++ d)) := by
    simp [List.append_assoc]
  rw [hshape]
  simp only [matchKwPhrase]
  rw [isPrefixOf_append_self]
  rw [if_pos rfl]
  rw [List.drop_left]
  have htw1 : (' ' :: ((w0 :: w2) ++ (" above ").data ++ d)).takeWhile Char.isWhitespace
      = [' '] := by
    rw [List.takeWhile_cons]
    have hw0 : w0.isWhitespace = false := hwss w0 (List.mem_cons_self _ _)
    simp [List.takeWhile_cons, hw0]
  have htw2 : (' ' :: ((w0 :: w2) ++ (" above ").data ++ d)).takeWhile phraseClassChar
      = ' ' :: ((w0 :: w2) ++ (" above ").data ++ d) := by
    rw [List.takeWhile_eq_self_iff]
    intro c hc
    rcases List.mem_cons.mp hc with rfl | hc2
    · decide
    · rcases List.mem_append.mp hc2 with hc3 | hc4
      · rcases List.mem_append.mp hc3 with hc5 | hc6
        · exact hwpc c hc5
        · exact (show ∀ x ∈ (" above ").data, phraseClassChar x = true by decide) c hc6
      · exact hdpc c hc4
  rw [htw1, htw2]
  split
  · rename_i hcondT
    exfalso
    simp only [Bool.or_eq_true, beq_iff_eq, decide_eq_true_eq, List.length_append,
      List.length_cons, List.length_nil, List.length_singleton] at hcondT
    rcases hcondT with h1 | h1 <;> omega
  · refine congrArg some (take_drop_group ' ' _ _ _ ?_ ?_)
    · simp only [List.length_append, List.length_cons, List.length_nil, List.length_singleton]
      omega
    · rw [List.length_cons]

lemma matchDirNum3_above_pos (d : Str) (hdne : d ≠ [])
    (hdc : ∀ c ∈ d, c.isDigit = true) (hd3 : 3 ≤ d.length) :
    matchDirNum3 aboveWords (("above").data ++ ' ' :: d) = some ((("above").data), d) := by
  obtain ⟨d0, d2, rfl⟩ : ∃ a l, d = a :: l := by
    cases d with
    | nil => exact absurd rfl hdne
    | cons a l => exact ⟨a, l, rfl⟩
  simp only [matchDirNum3, aboveWords, List.map_cons, List.map_nil, List.findSome?_cons]
  rw [isPrefixOf_append_self]
  rw [if_pos rfl]
  rw [List.drop_left]
  have hd0ws : d0.isWhitespace = false :=
    ws_false_of_ge (by have := (isDigit_toNat (hdc d0 (List.mem_cons_self _ _))).1; omega)
  have htw1 : (' ' :: d0 :: d2).takeWhile Char.isWhitespace = [' '] := by
    rw [List.takeWhile_cons]
    simp [List.takeWhile_cons, hd0ws]
  rw [htw1]
  rw [show (([' '] : Str).isEmpty) = false from rfl]
  simp only [Bool.false_eq_true, if_false]
  have hd2 : (' ' :: d0 :: d2).drop (([' '] : Str).length) = d0 :: d2 := rfl
  rw [hd2]
  have htwd : (d0 :: d2).takeWhile Char.isDigit = d0 :: d2 :=
    List.takeWhile_eq_self_iff.mpr hdc
  rw [htwd]
  rw [if_neg (show ¬(d0 :: d2).length < 3 from by omega)]
  rw [List.drop_length]
  rw [show nextNonWord ([] : Str) = true from rfl]
  rw [if_pos rfl]

/-- Words whose absence from the include word keeps the compound
`only <word> above <digits>` prompt inside the uniformly-parsed shape:
phrase separators, gender-normalization patterns, exclude keywords and
direction words. -/
def wordBlockers : List Str :=
  (["with", "having", "that", "where", "which", "and", "womens", "mens",
    "exclude", "without", "above", "over", "greater"]).map (·.data)

lemma scan_matchDirNum3_above (w d : Str)
    (hno : ∀ pat ∈ wordBlockers, ¬pat <:+: w)
    (hdne : d ≠ []) (hdc : ∀ c ∈ d, c.isDigit = true) (hd3 : 3 ≤ d.length) :
    scanOptB (matchDirNum3 aboveWords) Option.none
      (("only ").data ++ w ++ (" above ").data ++ d) = some ((("above").data), d) := by
  have hshape : ("only ").data ++ w ++ (" above ").data ++ d =
      ((("only ").data ++ w ++ [' ']) ++ (("above").data ++ ' ' :: d)) := by
    simp [List.append_assoc]
  rw [hshape]
  have hfail : ∀ u t, (("only ").data ++ w ++ [' ']) = u ++ t → t ≠ [] →
      matchDirNum3 aboveWords (t ++ (("above").data ++ ' ' :: d)) = Option.none := by
    intro u t hx hne
    apply matchDirNum3_none_of_noword
    intro dw hdw
    have hdwc : dw = ("above").data ∨ dw = ("over").data ∨ dw = ("greater than").data := by
      simp [aboveWords] at hdw
      exact hdw
    have ht : t <:+ ("only ").data ++ (w ++ [' ']) := by
      rw [← List.append_assoc]
      exact ⟨u, hx.symm⟩
    have key : ∀ v : Str, v <:+ w →
        dw.isPrefixOf (v ++ ([' '] ++ (("above").data ++ ' ' :: d))) = false := by
      intro v hv
      rw [← Bool.not_eq_true]
      intro hpre
      have hpre2 := List.isPrefixOf_iff_prefix.mp hpre
      rw [List.singleton_append] at hpre2
      have hwv : ∀ pat : Str, ' ' ∉ pat →
          pat <+: v ++ ' ' :: (("above").data ++ ' ' :: d) → pat <:+: w :=
        fun pat hsp hp =>
          List.infix_iff_prefix_suffix.mpr ⟨v, prefix_before_space pat v _ hsp hp, hv⟩
      rcases hdwc with rfl | rfl | rfl
      · exact hno _ (by decide) (hwv _ (by decide) hpre2)
      · exact hno _ (by decide) (hwv _ (by decide) hpre2)
      · have hg : ("greater").data <+: v ++ ' ' :: (("above").data ++ ' ' :: d) :=
          List.IsPrefix.trans (by decide) hpre2
        exact hno _ (by decide) (hwv _ (by decide) hg)
    rcases suffix_split _ _ _ ht with h1 | ⟨u2, hu2, rfl⟩
    · rcases suffix_split _ _ _ h1 with h2 | ⟨v, hv, rfl⟩
      · have hmem : t ∈ ([' '] : Str).tails := (List.mem_tails _ _).mpr h2
        simp [List.tails] at hmem
        rcases hmem with rfl | rfl
        · rcases hdwc with rfl | rfl | rfl <;> rfl
        · exact absurd rfl hne
      · rw [List.append_assoc]
        exact key v hv
    · have hmem : u2 ∈ (("only ").data).tails := (List.mem_tails _ _).mpr hu2
      simp [List.tails] at hmem
      rcases hmem with rfl | rfl | rfl | rfl | rfl | rfl
      · rcases hdwc with rfl | rfl | rfl <;> rfl
      · rcases hdwc with rfl | rfl | rfl <;> rfl
      · rcases hdwc with rfl | rfl | rfl <;> rfl
      · rcases hdwc with rfl | rfl | rfl <;> rfl
      · rcases hdwc with rfl | rfl | rfl <;> rfl
      · rw [List.nil_append, List.append_assoc]
        exact key w (List.suffix_refl w)
  rw [scanOptB_append (matchDirNum3 aboveWords) _ _ _ hfail]
  rw [show prevAfter Option.none (("only ").data ++ w ++ [' ']) = some ' ' from by
    unfold prevAfter
    rw [List.getLast?_concat]]
  exact scanOptB_cons_found _ _ _ _ (by decide) _ (matchDirNum3_above_pos d hdne hdc hd3)

lemma rev_head_nonws_of_append (X d : Str) (hdne : d ≠ [])
    (hdss : ∀ c ∈ d, c.isWhitespace = false) :
    ∀ c t, (X ++ d).reverse = c :: t → c.isWhitespace = false := by
  intro c t h
  rw [List.reverse_append] at h
  cases hdr : d.reverse with
  | nil => exact absurd (List.reverse_eq_nil_iff.mp hdr) hdne
  | cons b u =>
    rw [hdr, List.cons_append] at h
    injection h with h1 _
    rw [← h1]
    exact hdss b (List.mem_reverse.mp (by rw [hdr]; exact List.mem_cons_self _ _))

instance decWsAdj (a b : Char) : Decidable (wsAdj a b) :=
  inferInstanceAs (Decidable ¬(a.isWhitespace = true ∧ b.isWhitespace = true))

/-- Boolean check of the `wsAdj` adjacency condition, for evaluation on
concrete strings. -/
def wsAdjB (a b : Char) : Bool := !(a.isWhitespace && b.isWhitespace)

/-- Boolean chain check matching `List.Chain'` on a concrete string. -/
def chainB (p : Char → Char → Bool) : Str → Bool
  | [] => true
  | [_] => true
  | a :: b :: l => p a b && chainB p (b :: l)

lemma wsAdjB_sound (a b : Char) (h : wsAdjB a b = true) : wsAdj a b := by
  intro hx
  unfold wsAdjB at h
  rw [hx.1, hx.2] at h
  exact Bool.false_ne_true h

lemma chain_of_chainB (p : Char → Char → Bool) (R : Char → Char → Prop)
    (hpR : ∀ a b, p a b = true → R a b) : ∀ l : Str, chainB p l = true → List.Chain' R l := by
  intro l
  induction l with
  | nil => intro _; exact List.chain'_nil
  | cons a l ih =>
    intro h
    cases l with
    | nil => exact List.chain'_singleton a
    | cons b m =>
      rw [List.chain'_cons]
      unfold chainB at h
      rw [Bool.and_eq_true] at h
      exact ⟨hpR a b h.1, ih h.2⟩

lemma wsOk_p0 (w d : Str) (hwne : w ≠ []) (hdne : d ≠ [])
    (hwss : ∀ c ∈ w, c.isWhitespace = false) (hdss : ∀ c ∈ d, c.isWhitespace = false) :
    wsOk (("only ").data ++ w ++ (" above ").data ++ d) := by
  obtain ⟨w0, w2, rfl⟩ : ∃ a l, w = a :: l := by
    cases w with
    | nil => exact absurd rfl hwne
    | cons a l => exact ⟨a, l, rfl⟩
  obtain ⟨d0, d2, rfl⟩ : ∃ a l, d = a :: l := by
    cases d with
    | nil => exact absurd rfl hdne
    | cons a l => exact ⟨a, l, rfl⟩
  constructor
  · intro c hc hw
    rcases List.mem_append.mp hc with h1 | h2
    · rcases List.mem_append.mp h1 with h3 | h4
      · rcases List.mem_append.mp h3 with h5 | h6
        · exact (show ∀ x ∈ ("only ").data, x.isWhitespace = true → x = ' ' by decide) c h5 hw
        · rw [hwss c h6] at hw
          cases hw
      · exact (show ∀ x ∈ (" above ").data, x.isWhitespace = true → x = ' ' by decide) c h4 hw
    · rw [hdss c h2] at hw
      cases hw
  · rw [List.chain'_append]
    refine ⟨?_, chain_wsAdj_of_nows _ hdss, ?_⟩
    · rw [List.chain'_append]
      refine ⟨?_, chain_of_chainB wsAdjB wsAdj wsAdjB_sound _ (by decide), ?_⟩
      · rw [List.chain'_append]
        refine ⟨chain_of_chainB wsAdjB wsAdj wsAdjB_sound _ (by decide),
          chain_wsAdj_of_nows _ hwss, ?_⟩
        intro x hx y hy
        simp at hx
        subst hx
        simp at hy
        subst hy
        intro hcon
        rw [hwss w0 (List.mem_cons_self _ _)] at hcon
        exact Bool.false_ne_true hcon.2
      · intro x hx y hy
        rw [List.getLast?_append_of_ne_nil _ (by simp)] at hx
        have hx2 : x ∈ w0 :: w2 := List.mem_of_mem_getLast? hx
        intro hcon
        rw [hwss x hx2] at hcon
        exact Bool.false_ne_true hcon.1
    · intro x hx y hy
      rw [List.getLast?_append_of_ne_nil _ (by decide)] at hx
      rw [show ((" above ").data).getLast? = some ' ' from rfl] at hx
      simp at hx
      subst hx
      simp at hy
      subst hy
      intro hcon
      rw [hdss d0 (List.mem_cons_self _ _)] at hcon
      exact Bool.false_ne_true hcon.2

lemma p0_chars (w d : Str) (hwc : ∀ c ∈ w, 97 ≤ c.toNat ∧ c.toNat ≤ 122)
    (hdc : ∀ c ∈ d, c.isDigit = true) :
    ∀ c ∈ (("only ").data ++ w ++ (" above ").data ++ d), c.toNat < 60 ∨ 62 < c.toNat := by
  intro c hc
  rcases List.mem_append.mp hc with h1 | h2
  · rcases List.mem_append.mp h1 with h3 | h4
    · rcases List.mem_append.mp h3 with h5 | h6
      · exact (show ∀ x ∈ ("only ").data, x.toNat < 60 ∨ 62 < x.toNat by decide) c h5
      · exact Or.inr (by have := (hwc c h6).1; omega)
    · exact (show ∀ x ∈ (" above ").data, x.toNat < 60 ∨ 62 < x.toNat by decide) c h4
  · exact Or.inl (by have := (isDigit_toNat (hdc c h2)).2; omega)

lemma p0_digitTail (w d : Str) (hwc : ∀ c ∈ w, 97 ≤ c.toNat ∧ c.toNat ≤ 122)
    (hdc : ∀ c ∈ d, c.isDigit = true) :
    DigitTail (("only ").data ++ w ++ (" above ").data ++ d) := by
  apply digitTail_append _ _ _ hdc
  intro c hc
  rcases List.mem_append.mp hc with h1 | h2
  · rcases List.mem_append.mp h1 with h3 | h4
    · exact (show ∀ x ∈ ("only ").data, x.isDigit = false by decide) c h3
    · exact isDigit_false_of_ge (by have := (hwc c h4).1; omega)
  · exact (show ∀ x ∈ (" above ").data, x.isDigit = false by decide) c h2

lemma not_infix_p0 (w d : Str) (hdc : ∀ c ∈ d, c.isDigit = true)
    (pat : Str) (hsp : ' ' ∉ pat)
    (h1 : ¬pat <:+: ("only").data) (h2 : ¬pat <:+: w) (h3 : ¬pat <:+: ("above").data)
    (h4 : ∀ c r, pat = c :: r → c.isDigit = false) :
    ¬pat <:+: (("only ").data ++ w ++ (" above ").data ++ d) := by
  intro h
  have hshape : ("only ").data ++ w ++ (" above ").data ++ d =
      ("only").data ++ ' ' :: (w ++ ' ' :: (("above").data ++ ' ' :: d)) := by
    simp [List.append_assoc]
  rw [hshape] at h
  rcases infix_split_space pat hsp _ _ h with h5 | h5
  · exact h1 h5
  · rcases infix_split_space pat hsp _ _ h5 with h6 | h6
    · exact h2 h6
    · rcases infix_split_space pat hsp _ _ h6 with h7 | h7
      · exact h3 h7
      · cases hp : pat with
        | nil =>
          rw [hp] at h1
          exact h1 List.nil_infix
        | cons c r =>
          rw [hp] at h7
          have hcd := hdc c (h7.subset (List.mem_cons_self _ _))
          rw [h4 c r hp] at hcd
          cases hcd

lemma norm_p0 (w d : Str) (hwne : w ≠ []) (hdne : d ≠ [])
    (hwc : ∀ c ∈ w, 97 ≤ c.toNat ∧ c.toNat ≤ 122)
    (hdc : ∀ c ∈ d, c.isDigit = true) :
    norm (("only ").data ++ w ++ (" above ").data ++ d) =
      ("only ").data ++ w ++ (" above ").data ++ d := by
  have hwss : ∀ c ∈ w, c.isWhitespace = false :=
    fun c hc => ws_false_of_ge (by have := (hwc c hc).1; omega)
  have hdss : ∀ c ∈ d, c.isWhitespace = false :=
    fun c hc => ws_false_of_ge (by have := (isDigit_toNat (hdc c hc)).1; omega)
  apply norm_eq_self
  · intro c hc
    rcases List.mem_append.mp hc with h1 | h2
    · rcases List.mem_append.mp h1 with h3 | h4
      · rcases List.mem_append.mp h3 with h5 | h6
        · exact (show ∀ x ∈ ("only ").data, x.toLower = x by decide) c h5
        · exact toLower_fix (Or.inr (by have := (hwc c h6).1; omega))
      · exact (show ∀ x ∈ (" above ").data, x.toLower = x by decide) c h4
    · exact toLower_fix (Or.inl (by have := (isDigit_toNat (hdc c h2)).2; omega))
  · exact wsOk_p0 w d hwne hdne hwss hdss
  · intro c t h
    rw [show ("only ").data ++ w ++ (" above ").data ++ d =
        'o' :: (("nly ").data ++ w ++ (" above ").data ++ d) from rfl] at h
    injection h with h1 _
    rw [← h1]
    decide
  · exact rev_head_nonws_of_append (("only ").data ++ w ++ (" above ").data) d hdne hdss

lemma trimR (w d : Str) (hwne : w ≠ []) (hdne : d ≠ [])
    (hwss : ∀ c ∈ w, c.isWhitespace = false)
    (hdss : ∀ c ∈ d, c.isWhitespace = false) :
    trimStr (w ++ (" above ").data ++ d) = w ++ (" above ").data ++ d := by
  obtain ⟨w0, w2, rfl⟩ : ∃ a l, w = a :: l := by
    cases w with
    | nil => exact absurd rfl hwne
    | cons a l => exact ⟨a, l, rfl⟩
  apply trimStr_eq_self
  · intro c t h
    rw [show (w0 :: w2) ++ (" above ").data ++ d =
        w0 :: (w2 ++ (" above ").data ++ d) from rfl] at h
    injection h with h1 _
    rw [← h1]
    exact hwss w0 (List.mem_cons_self _ _)
  · exact rev_head_nonws_of_append ((w0 :: w2) ++ (" above ").data) d hdne hdss

lemma sep_kill (w d : Str) (hdc : ∀ c ∈ d, c.isDigit = true)
    (sp : Str) (hspset : ' ' ∉ sp)
    (hw : ¬sp <:+: w) (hab : ¬sp <:+: ("above").data)
    (hdig : ∀ c r, sp = c :: r → c.isDigit = false) :
    ¬sp <:+: w ++ ' ' :: (("above").data ++ ' ' :: d) := by
  intro hinf
  rcases infix_split_space sp hspset _ _ hinf with h1 | h1
  · exact hw h1
  · rcases infix_split_space sp hspset _ _ h1 with h2 | h2
    · exact hab h2
    · cases hsp2 : sp with
      | nil =>
        rw [hsp2] at hw
        exact hw List.nil_infix
      | cons c r =>
        rw [hsp2] at h2
        have hcd := hdc c (h2.subset (List.mem_cons_self _ _))
        rw [hdig c r hsp2] at hcd
        cases hcd

lemma splitR (w d : Str)
    (hwc : ∀ c ∈ w, 97 ≤ c.toNat ∧ c.toNat ≤ 122)
    (hdc : ∀ c ∈ d, c.isDigit = true)
    (hno : ∀ pat ∈ wordBlockers, ¬pat <:+: w) :
    splitFirstSep (w ++ (" above ").data ++ d) = w ++ (" above ").data ++ d := by
  have hshapeR : w ++ (" above ").data ++ d = w ++ ' ' :: (("above").data ++ ' ' :: d) := by
    simp [List.append_assoc]
  rw [hshapeR]
  apply splitFirstSep_eq_self
  intro sp hsp
  have hspset : ' ' ∉ sp := (show ∀ x ∈ separatorPats, ' ' ∉ x by decide) sp hsp
  simp [separatorPats] at hsp
  rcases hsp with rfl | rfl | rfl | rfl | rfl | rfl | rfl | rfl
  · exact sep_kill w d hdc _ hspset (hno _ (by decide))
      (fun h2 => by rw [← containsSub_infix_iff] at h2; exact absurd h2 (by decide))
      (fun c r h => by injection h with h1 _; rw [← h1]; decide)
  · exact sep_kill w d hdc _ hspset (hno _ (by decide))
      (fun h2 => by rw [← containsSub_infix_iff] at h2; exact absurd h2 (by decide))
      (fun c r h => by injection h with h1 _; rw [← h1]; decide)
  · exact sep_kill w d hdc _ hspset (hno _ (by decide))
      (fun h2 => by rw [← containsSub_infix_iff] at h2; exact absurd h2 (by decide))
      (fun c r h => by injection h with h1 _; rw [← h1]; decide)
  · exact sep_kill w d hdc _ hspset (hno _ (by decide))
      (fun h2 => by rw [← containsSub_infix_iff] at h2; exact absurd h2 (by decide))
      (fun c r h => by injection h with h1 _; rw [← h1]; decide)
  · exact sep_kill w d hdc _ hspset (hno _ (by decide))
      (fun h2 => by rw [← containsSub_infix_iff] at h2; exact absurd h2 (by decide))
      (fun c r h => by injection h with h1 _; rw [← h1]; decide)
  · exact sep_kill w d hdc _ hspset (hno _ (by decide))
      (fun h2 => by rw [← containsSub_infix_iff] at h2; exact absurd h2 (by decide))
      (fun c r h => by injection h with h1 _; rw [← h1]; decide)
  · exact sep_kill w d hdc _ hspset
      (fun h1 => absurd (hwc _ (h1.subset (List.mem_cons_self _ _))).1 (by decide))
      (fun h2 => by rw [← containsSub_infix_iff] at h2; exact absurd h2 (by decide))
      (fun c r h => by injection h with h1 _; rw [← h1]; decide)
  · exact sep_kill w d hdc _ hspset
      (fun h1 => absurd (hwc _ (h1.subset (List.mem_cons_self _ _))).1 (by decide))
      (fun h2 => by rw [← containsSub_infix_iff] at h2; exact absurd h2 (by decide))
      (fun c r h => by injection h with h1 _; rw [← h1]; decide)

lemma expand_p0 (w d : Str) (hwne : w ≠ []) (hdne : d ≠ [])
    (hwc : ∀ c ∈ w, 97 ≤ c.toNat ∧ c.toNat ≤ 122)
    (hdc : ∀ c ∈ d, c.isDigit = true)
    (hstop : w ∉ stop_words)
    (hno : ∀ pat ∈ wordBlockers, ¬pat <:+: w) :
    expand_only_phrase (w ++ (" above ").data ++ d) = [w, ("above").data, d] := by
  have hwss : ∀ c ∈ w, c.isWhitespace = false :=
    fun c hc => ws_false_of_ge (by have := (hwc c hc).1; omega)
  have hdss : ∀ c ∈ d, c.isWhitespace = false :=
    fun c hc => ws_false_of_ge (by have := (isDigit_toNat (hdc c hc)).1; omega)
  have hnormR : norm (w ++ (" above ").data ++ d) = w ++ (" above ").data ++ d := by
    apply norm_eq_self
    · intro c hc
      rcases List.mem_append.mp hc with h1 | h2
      · rcases List.mem_append.mp h1 with h3 | h4
        · exact toLower_fix (Or.inr (by have := (hwc c h3).1; omega))
        · exact (show ∀ x ∈ (" above ").data, x.toLower = x by decide) c h4
      · exact toLower_fix (Or.inl (by have := (isDigit_toNat (hdc c h2)).2; omega))
    · have hsuf : (w ++ (" above ").data ++ d) <:+
          (("only ").data ++ w ++ (" above ").data ++ d) :=
        ⟨("only ").data, by simp [List.append_assoc]⟩
      exact wsOk_infix_mono (wsOk_p0 w d hwne hdne hwss hdss) hsuf.isInfix
    · intro c t h
      obtain ⟨w0, w2, rfl⟩ : ∃ a l, w = a :: l := by
        cases w with
        | nil => exact absurd rfl hwne
        | cons a l => exact ⟨a, l, rfl⟩
      rw [show (w0 :: w2) ++ (" above ").data ++ d =
          w0 :: (w2 ++ (" above ").data ++ d) from rfl] at h
      injection h with h1 _
      rw [← h1]
      exact hwss w0 (List.mem_cons_self _ _)
    · exact rev_head_nonws_of_append (w ++ (" above ").data) d hdne hdss
  have hsplit : pySplit (w ++ (" above ").data ++ d) = [w, ("above").data, d] := by
    have hlastd : pySplitAux ([] : Str) d = [d] := by
      conv_lhs => rw [← List.append_nil d]
      rw [pySplitAux_block [] d [] hdss, List.append_nil, pySplitAux_nil]
      rw [show (d.reverse).isEmpty = false from isEmpty_false_of_ne_nil (reverse_ne_nil hdne)]
      simp only [Bool.false_eq_true, if_false]
      rw [List.reverse_reverse]
    have hshapeR : w ++ (" above ").data ++ d =
        w ++ (' ' :: (("above").data ++ ' ' :: d)) := by
      simp [List.append_assoc]
    rw [hshapeR]
    unfold pySplit
    rw [pySplitAux_block (' ' :: (("above").data ++ ' ' :: d)) w [] hwss]
    rw [List.append_nil]
    rw [pySplitAux_cons_ws _ ' ' _ (by decide)]
    rw [show (w.reverse).isEmpty = false from isEmpty_false_of_ne_nil (reverse_ne_nil hwne)]
    simp only [Bool.false_eq_true, if_false]
    rw [List.reverse_reverse]
    rw [pySplitAux_block (' ' :: d) (("above").data) [] (by decide)]
    rw [List.append_nil]
    rw [pySplitAux_cons_ws _ ' ' _ (by decide)]
    rw [show ((("above").data.reverse) : Str).isEmpty = false from rfl]
    simp only [Bool.false_eq_true, if_false]
    rw [hlastd]
    rw [show ((("above").data.reverse).reverse : Str) = ("above").data from rfl]
    rfl
  have hs1 : stripSet tokenStripChars w = w := by
    apply stripSet_eq_self
    intro c hc
    rw [← Bool.not_eq_true]
    intro hx
    have hm : c ∈ tokenStripChars := List.elem_iff.mp hx
    simp [tokenStripChars, apos] at hm
    rcases hm with rfl | rfl | rfl | rfl | rfl <;>
      exact absurd (hwc _ hc).1 (by decide)
  have hs2 : stripSet tokenStripChars (("above").data) = ("above").data := by decide
  have hs3 : stripSet tokenStripChars d = d := by
    apply stripSet_eq_self
    intro c hc
    rw [← Bool.not_eq_true]
    intro hx
    have hm : c ∈ tokenStripChars := List.elem_iff.mp hx
    simp [tokenStripChars, apos] at hm
    rcases hm with rfl | rfl | rfl | rfl | rfl <;>
      exact absurd (isDigit_toNat (hdc _ hc)).1 (by decide)
  have hfilter : ([w, ("above").data, d]).filter
      (fun t => !t.isEmpty && !stop_words.contains t) = [w, ("above").data, d] := by
    rw [List.filter_eq_self]
    intro x hx
    rcases List.mem_cons.mp hx with rfl | hx2
    · rw [isEmpty_false_of_ne_nil hwne,
        show stop_words.contains x = false from by
          rw [← Bool.not_eq_true]
          exact fun hxx => hstop (List.elem_iff.mp hxx)]
      rfl
    · rcases List.mem_cons.mp hx2 with rfl | hx3
      · decide
      · rcases List.mem_cons.mp hx3 with rfl | hx4
        · obtain ⟨d0, d2, rfl⟩ : ∃ a l, x = a :: l := by
            cases x with
            | nil => exact absurd rfl hdne
            | cons a l => exact ⟨a, l, rfl⟩
          rw [show ((d0 :: d2).isEmpty) = false from rfl]
          rw [show stop_words.contains (d0 :: d2) = false from by
            rw [← Bool.not_eq_true]
            intro hxx
            have hmem := List.elem_iff.mp hxx
            have hhead := (show ∀ sw ∈ stop_words, ∀ c ∈ sw.head?, 97 ≤ c.toNat
              by decide) _ hmem d0 rfl
            have := (isDigit_toNat (hdc d0 (List.mem_cons_self _ _))).2
            omega]
          rfl
        · exact absurd hx4 (List.not_mem_nil x)
  have hg1 : genderNorm w = w := by
    simp only [genderNorm]
    rw [replaceAll_eq_self _ _ _ (hno _ (by decide))]
    rw [replaceAll_eq_self _ _ _
      (fun h => absurd (hwc rsquo (h.subset (by decide))).2 (by decide))]
    rw [replaceAll_eq_self _ _ _
      (fun h => absurd (hwc apos (h.subset (by decide))).1 (by decide))]
    rw [replaceAll_eq_self _ _ _ (hno _ (by decide))]
    rw [replaceAll_eq_self _ _ _
      (fun h => absurd (hwc rsquo (h.subset (by decide))).2 (by decide))]
    rw [replaceAll_eq_self _ _ _
      (fun h => absurd (hwc apos (h.subset (by decide))).1 (by decide))]
  have hg2 : genderNorm (("above").data) = ("above").data := by decide
  have hg3 : genderNorm d = d := by
    simp only [genderNorm]
    rw [replaceAll_eq_self _ _ _
      (fun h => absurd (hdc 'w' (h.subset (by decide))) (by decide))]
    rw [replaceAll_eq_self _ _ _
      (fun h => absurd (hdc 'w' (h.subset (by decide))) (by decide))]
    rw [replaceAll_eq_self _ _ _
      (fun h => absurd (hdc 'w' (h.subset (by decide))) (by decide))]
    rw [replaceAll_eq_self _ _ _
      (fun h => absurd (hdc 'm' (h.subset (by decide))) (by decide))]
    rw [replaceAll_eq_self _ _ _
      (fun h => absurd (hdc 'm' (h.subset (by decide))) (by decide))]
    rw [replaceAll_eq_self _ _ _
      (fun h => absurd (hdc 'm' (h.subset (by decide))) (by decide))]
  simp only [expand_only_phrase, hnormR, hsplit, List.map_cons, List.map_nil, hs1, hs2, hs3,
    hfilter, hg1, hg2, hg3]

lemma include_p0 (w d : Str) (hwne : w ≠ []) (hdne : d ≠ [])
    (hwc : ∀ c ∈ w, 97 ≤ c.toNat ∧ c.toNat ≤ 122)
    (hdc : ∀ c ∈ d, c.isDigit = true) (hd3 : 3 ≤ d.length)
    (hstop : w ∉ stop_words)
    (hno : ∀ pat ∈ wordBlockers, ¬pat <:+: w) :
    phraseKeywords (("only").data) (("only ").data ++ w ++ (" above ").data ++ d) =
      [w, ("above").data, d] := by
  have hwss : ∀ c ∈ w, c.isWhitespace = false :=
    fun c hc => ws_false_of_ge (by have := (hwc c hc).1; omega)
  have hdss : ∀ c ∈ d, c.isWhitespace = false :=
    fun c hc => ws_false_of_ge (by have := (isDigit_toNat (hdc c hc)).1; omega)
  have hwpc : ∀ c ∈ w, phraseClassChar c = true :=
    fun c hc => phraseClassChar_letter (hwc c hc).1 (hwc c hc).2
  have hdpc : ∀ c ∈ d, phraseClassChar c = true :=
    fun c hc => phraseClassChar_digit (hdc c hc)
  have hscan : scanOptB (matchKwPhrase (("only").data)) Option.none
      (("only ").data ++ w ++ (" above ").data ++ d) =
      some (w ++ (" above ").data ++ d) :=
    scanOptB_cons_found _ _ _ _ (by decide) _
      (matchKwPhrase_only_pos w d hwne hwss hwpc hdpc hd3)
  have htrim := trimR w d hwne hdne hwss hdss
  have hsplitr := splitR w d hwc hdc hno
  have hexp := expand_p0 w d hwne hdne hwc hdc hstop hno
  simp only [phraseKeywords, hscan, htrim, hsplitr, hexp]
  rfl

/-- **C7.**  For every prompt of the shape `only <word> above <digits>` — the
include word a nonempty lowercase-letter word that is not a stop word and
contains none of the separator, gender, exclude or direction words, the amount
a digit string of at least three digits — the filter compiler both captures
the numeric tail into the include keywords (they become exactly
`[word, "above", digits]`, since the phrase separators include neither
direction words nor raw numbers) and emits the numeric filter
`{field_hint "price", op ">", value digits}` through the `above <number>`
pattern. -/
theorem C7_compound_only_above (w d : Str) (hwne : w ≠ [])
    (hwc : ∀ c ∈ w, 97 ≤ c.toNat ∧ c.toNat ≤ 122)
    (hdne : d ≠ []) (hdc : ∀ c ∈ d, c.isDigit = true) (hd3 : 3 ≤ d.length)
    (hstop : w ∉ stop_words)
    (hno : ∀ pat ∈ wordBlockers, ¬pat <:+: w) :
    parse_filters_from_prompt (("only ").data ++ w ++ (" above ").data ++ d) =
      ⟨[w, ("above").data, d], [],
       [⟨("price").data, (">").data, some ((digitsVal d : ℚ))⟩]⟩ := by
  have hD := p0_digitTail w d hwc hdc
  have hnorm := norm_p0 w d hwne hdne hwc hdc
  have hexc1 : phraseKeywords (("exclude").data)
      (("only ").data ++ w ++ (" above ").data ++ d) = [] := by
    simp only [phraseKeywords,
      scan_matchKwPhrase_none (("exclude").data) _ Option.none
        (not_infix_p0 w d hdc (("exclude").data) (by decide)
          (fun hx => by rw [← containsSub_infix_iff] at hx; exact absurd hx (by decide))
          (hno _ (by decide))
          (fun hx => by rw [← containsSub_infix_iff] at hx; exact absurd hx (by decide))
          (fun c r h => by injection h with h1 _; rw [← h1]; decide))]
  have hexc2 : phraseKeywords (("without").data)
      (("only ").data ++ w ++ (" above ").data ++ d) = [] := by
    simp only [phraseKeywords,
      scan_matchKwPhrase_none (("without").data) _ Option.none
        (not_infix_p0 w d hdc (("without").data) (by decide)
          (fun hx => by rw [← containsSub_infix_iff] at hx; exact absurd hx (by decide))
          (hno _ (by decide))
          (fun hx => by rw [← containsSub_infix_iff] at hx; exact absurd hx (by decide))
          (fun c r h => by injection h with h1 _; rw [← h1]; decide))]
  have hinc := include_p0 w d hwne hdne hwc hdc hd3 hstop hno
  have hsA : scanOptB matchFieldOp Option.none
      (("only ").data ++ w ++ (" above ").data ++ d) = Option.none :=
    scanOptB_none_of _ _ _ (fun t ht _ => matchFieldOp_none t
      (fun c hc => p0_chars w d hwc hdc c (ht.subset hc)))
  have hsB : scanOptB (matchDirNumK aboveWords) Option.none
      (("only ").data ++ w ++ (" above ").data ++ d) = Option.none :=
    scanOptB_none_of _ _ _ (fun t ht _ => matchDirNumK_none aboveWords _ t hD ht)
  have hsC : scanOptB (matchDirNumK belowWords) Option.none
      (("only ").data ++ w ++ (" above ").data ++ d) = Option.none :=
    scanOptB_none_of _ _ _ (fun t ht _ => matchDirNumK_none belowWords _ t hD ht)
  have hsD := scan_matchDirNum3_above w d hno hdne hdc hd3
  have hnum : numericFiltersOf (("only ").data ++ w ++ (" above ").data ++ d) =
      [⟨("price").data, (">").data, some ((digitsVal d : ℚ))⟩] := by
    simp only [numericFiltersOf, hsA, hsB, hsC, hsD]
    rfl
  simp only [parse_filters_from_prompt, hnorm, hinc, hexc1, hexc2, hnum, List.nil_append]

/-- Witness for C7: the concrete prompt `only hoodies above 10000` yields
include keywords `[hoodies, above, 10000]` together with the numeric filter
`price > 10000`. -/
theorem C7_compound_only_above_witness :
    parse_filters_from_prompt
        (("only ").data ++ ("hoodies").data ++ (" above ").data ++ ("10000").data) =
      ⟨[("hoodies").data, ("above").data, ("10000").data], [],
       [⟨("price").data, (">").data, some ((digitsVal (("10000").data) : ℚ))⟩]⟩ :=
  C7_compound_only_above (("hoodies").data) (("10000").data) (by decide) (by decide)
    (by decide) (by decide) (by decide) (by decide) (by decide)

end Prompt2Scrape
